import Mathlib

/-!
Verification development for the `n8n-nodes-text-to-json` codec pair:

* `TextToJson.node.ts` — decode: schema-driven parser turning flat text lines
  into JSON-like values, with count-driven nested child blocks;
* `JsonToText.node.ts` — encode: schema-driven formatter turning JSON-like
  values into fixed-width / variable-length text lines.

The development is a shallow embedding of the two `execute` bodies (the later,
typed snapshot of each file) together with the platform primitives they rely
on.  JavaScript strings are modelled as `List Char`; JavaScript numbers are
modelled as integers plus an explicit NaN marker (float-valued numerics are
outside the model and are mapped to the NaN marker; no claim depends on
them).  JavaScript exceptions (TypeError from indexing `undefined`,
SyntaxError from `new RegExp` inside `parseLine`) are modelled with `Except`.
Recursions whose termination is data-driven in the source (the block parser,
the recursive record formatter, the regex engine) are expressed with an
explicit fuel argument so that every definition is executable and
kernel-reducible; theorems show the canonical fuel is never exhausted where
the claim needs it.
-/

namespace T2J

/-- JavaScript strings, modelled as lists of characters. -/
abbrev JStr := List Char

/-- Character set treated as whitespace by JavaScript `trim` / `\s`. -/
def jsWS (c : Char) : Bool :=
  c = ' ' || c = '\t' || c = '\n' || c = '\r' ||
  c = Char.ofNat 11 || c = Char.ofNat 12 || c = Char.ofNat 160 ||
  c = Char.ofNat 0x2028 || c = Char.ofNat 0x2029 || c = Char.ofNat 0xFEFF

/-- Drop trailing whitespace characters. -/
def dropTrailWS (l : JStr) : JStr := (l.reverse.dropWhile jsWS).reverse

/-- JavaScript `String.prototype.trim`. -/
def jsTrim (l : JStr) : JStr := dropTrailWS (l.dropWhile jsWS)

/-- JavaScript `String.prototype.substr(start, len)` for non-negative arguments. -/
def substrJS (l : JStr) (s len : Nat) : JStr := (l.drop s).take len

/-- JavaScript `String.prototype.repeat`. -/
def repeatJ (s : JStr) : Nat → JStr
  | 0 => []
  | n + 1 => s ++ repeatJ s n

/-- JavaScript `String.prototype.toLowerCase` (ASCII-adequate model). -/
def jsToLower (l : JStr) : JStr := l.map Char.toLower

/-- Helper for the line splitter: push a character onto the first chunk. -/
def consHead (c : Char) : List JStr → List JStr
  | [] => [[c]]
  | l :: ls => (c :: l) :: ls

/-- JavaScript `text.split(/\r?\n/)`: split at `\n` or `\r\n`; a lone `\r`
does not split. -/
def splitNL : JStr → List JStr
  | [] => [[]]
  | c :: rest =>
    if c = '\n' then [] :: splitNL rest
    else if c = '\r' then
      match rest with
      | '\n' :: rest2 => [] :: splitNL rest2
      | [] => [[c]]
      | d :: rest2 => consHead c (splitNL (d :: rest2))
    else consHead c (splitNL rest)

/-- JavaScript `text.replace(/^﻿/, '')`: strip a single leading BOM. -/
def stripBOM : JStr → JStr
  | c :: rest => if c = Char.ofNat 0xFEFF then rest else c :: rest
  | [] => []

/-- Recursive worker for `splitOnStr` (fuel bounds the scan). -/
def splitOnGo (sep : JStr) : Nat → JStr → JStr → List JStr
  | 0, acc, rest => [acc.reverse ++ rest]
  | _ + 1, acc, [] => [acc.reverse]
  | fuel + 1, acc, c :: r =>
    if sep.isPrefixOf (c :: r) then
      acc.reverse :: splitOnGo sep fuel [] ((c :: r).drop sep.length)
    else
      splitOnGo sep fuel (c :: acc) r

/-- JavaScript `String.prototype.split` with a non-empty string separator.
The empty-separator case never arises in the embedded code (it is guarded by
truthiness checks); it is mapped to the identity split. -/
def splitOnStr (sep l : JStr) : List JStr :=
  if sep.isEmpty then [l] else splitOnGo sep (l.length + 1) [] l

/-- JavaScript `Array.prototype.join` over strings. -/
def jsJoin (sep : JStr) : List JStr → JStr
  | [] => []
  | [x] => x
  | x :: xs => x ++ sep ++ jsJoin sep xs

/-- Concatenate a list of strings. -/
def catLists : List JStr → JStr
  | [] => []
  | l :: ls => l ++ catLists ls

/-- JSON-like runtime values flowing through both nodes.  `nanv` stands for
the JavaScript NaN number; `date` records the raw text handed to
`new Date(...)` (date parsing itself is out of scope, cf. spec §9). -/
inductive JVal where
  | null
  | str (s : JStr)
  | num (n : Int)
  | nanv
  | bool (b : Bool)
  | date (raw : JStr)
  | arr (elems : List JVal)
  | obj (entries : List (JStr × JVal))

/-- JavaScript object state: key/value entries in insertion order.  Keys are
unique by construction because all writes go through `setKey`. -/
abbrev JObj := List (JStr × JVal)

/-- First-match association lookup (JavaScript property read on an object
whose keys are unique). -/
def lookupKey {α : Type} : List (JStr × α) → JStr → Option α
  | [], _ => none
  | (k', v) :: rest, k => if k' = k then some v else lookupKey rest k

/-- JavaScript property assignment `o[k] = v`: overwrite in place if the key
exists, otherwise append (insertion order). -/
def setKey {α : Type} : List (JStr × α) → JStr → α → List (JStr × α)
  | [], k, v => [(k, v)]
  | (k', v') :: rest, k, v =>
    if k' = k then (k, v) :: rest else (k', v') :: setKey rest k v

/-- Rest-destructuring `const { k, ...rest } = o`: all entries except `k`,
in order. -/
def removeKey {α : Type} (o : List (JStr × α)) (k : JStr) : List (JStr × α) :=
  o.filter (fun e => decide (e.1 ≠ k))

mutual

/-- JavaScript `String(v)` coercion. -/
def jsString : JVal → JStr
  | .null => "null".toList
  | .str s => s
  | .num n => (toString n).toList
  | .nanv => "NaN".toList
  | .bool b => if b then "true".toList else "false".toList
  | .date raw => raw
  | .arr xs => jsStringElems xs
  | .obj _ => "[object Object]".toList
termination_by structural v => v

/-- JavaScript array-to-string: elements joined by commas, `null` elements
rendered empty. -/
def jsStringElems : List JVal → JStr
  | [] => []
  | [.null] => []
  | [v] => jsString v
  | .null :: vs => ',' :: jsStringElems vs
  | v :: vs => jsString v ++ (',' :: jsStringElems vs)
termination_by structural vs => vs

end

/-!
Regular-expression engine.  `new RegExp(src)` is platform code; the model
below implements the JavaScript constructs actually reachable from this
repository's schemas: literals, escapes, `.`, character classes, `^`/`$`,
grouping (capturing and `(?:`), alternation, and the greedy/lazy quantifiers
`* + ? {m} {m,} {m,n}`.  Lookarounds, named groups and backreferences are
outside the model (their `\\`-forms make compilation fail here).  Matching is
a fuelled backtracking search, mirroring the backtracking order of the
JavaScript engine, threading the capture-group map through a continuation.
-/

/-- Tags for the predefined classes `\d`, `\w`, `\s`. -/
inductive CTag where
  | digit
  | word
  | space
deriving DecidableEq

/-- One item of a bracket character class. -/
inductive ClsItem where
  | one (c : Char)
  | range (a b : Char)
  | ptag (t : CTag) (neg : Bool)
deriving DecidableEq

/-- Regular-expression abstract syntax. -/
inductive RE where
  | eps
  | lit (c : Char)
  | anyc
  | cls (neg : Bool) (items : List ClsItem)
  | bol
  | eol
  | seq (a b : RE)
  | alt (a b : RE)
  | star (lazy : Bool) (a : RE)
  | group (idx : Nat) (a : RE)
deriving DecidableEq

/-- Character test for a predefined class tag. -/
def ctagMatch : CTag → Char → Bool
  | .digit, c => c.isDigit
  | .word, c => c.isAlphanum || c = '_'
  | .space, c => jsWS c

/-- Character test for a class item. -/
def clsItemMatch : ClsItem → Char → Bool
  | .one c', c => c = c'
  | .range a b, c => a ≤ c && c ≤ b
  | .ptag t n, c => xor n (ctagMatch t c)

/-- Character test for a whole bracket class. -/
def clsMatch (neg : Bool) (items : List ClsItem) (c : Char) : Bool :=
  xor neg (items.any (fun it => clsItemMatch it c))

/-- Line-terminator characters, which `.` does not match. -/
def isLineTerm (c : Char) : Bool :=
  c = '\n' || c = '\r' || c = Char.ofNat 0x2028 || c = Char.ofNat 0x2029

/-- Record a capture-group value (overwrite semantics). -/
def capSet : List (Nat × JStr) → Nat → JStr → List (Nat × JStr)
  | [], n, v => [(n, v)]
  | (n', v') :: rest, n, v =>
    if n' = n then (n, v) :: rest else (n', v') :: capSet rest n v

/-- Look up a capture-group value. -/
def capGet : List (Nat × JStr) → Nat → Option JStr
  | [], _ => none
  | (n', v) :: rest, n => if n' = n then some v else capGet rest n

/-- Backtracking matcher.  State: remaining input, a flag telling whether we
are still at the very start of the subject (for `^`), and the capture map.
The continuation receives the state after the node; the first success in
backtracking order wins.  Fuel bounds the call depth. -/
def mat {α : Type} : Nat → RE → JStr → Bool → List (Nat × JStr) →
    (JStr → Bool → List (Nat × JStr) → Option α) → Option α
  | 0, _, _, _, _, _ => none
  | fuel + 1, re, s, b, caps, k =>
    match re with
    | .eps => k s b caps
    | .lit c =>
      match s with
      | c' :: r => if c' = c then k r false caps else none
      | [] => none
    | .anyc =>
      match s with
      | c' :: r => if isLineTerm c' then none else k r false caps
      | [] => none
    | .cls neg items =>
      match s with
      | c' :: r => if clsMatch neg items c' then k r false caps else none
      | [] => none
    | .bol => if b then k s b caps else none
    | .eol => if s.isEmpty then k s b caps else none
    | .seq a c => mat fuel a s b caps (fun s' b' caps' => mat fuel c s' b' caps' k)
    | .alt a c =>
      match mat fuel a s b caps k with
      | some r => some r
      | none => mat fuel c s b caps k
    | .star lz a =>
      let expand := fun (_ : Unit) =>
        mat fuel a s b caps (fun s' b' caps' =>
          if s'.length < s.length then mat fuel (.star lz a) s' b' caps' k else none)
      if lz then
        match k s b caps with
        | some r => some r
        | none => expand ()
      else
        match expand () with
        | some r => some r
        | none => k s b caps
    | .group n a =>
      mat fuel a s b caps (fun s' b' caps' =>
        k s' b' (if n = 0 then caps' else capSet caps' n (s.take (s.length - s'.length))))

/-- Syntactic size of a regex, used to budget matcher fuel. -/
def reSize : RE → Nat
  | .eps => 1
  | .lit _ => 1
  | .anyc => 1
  | .cls _ _ => 1
  | .bol => 1
  | .eol => 1
  | .seq a b => reSize a + reSize b + 1
  | .alt a b => reSize a + reSize b + 1
  | .star _ a => reSize a + 1
  | .group _ a => reSize a + 1

/-- Fuel sufficient for matching `re` once against (a suffix of) `s`. -/
def matFuel (re : RE) (s : JStr) : Nat :=
  (reSize re + 1) * (s.length + 1) + reSize re + 1

/-- Try to match `re` at the start of suffix `s`; on success return the
number of characters consumed and the capture map. -/
def matAt (re : RE) (s : JStr) (isStart : Bool) : Option (Nat × List (Nat × JStr)) :=
  mat (matFuel re s) re s isStart [] (fun s' _ caps => some (s.length - s'.length, caps))

/-- Worker for `reTest`: try each start position in turn. -/
def tryFrom (re : RE) : Nat → JStr → Bool → Bool
  | 0, _, _ => false
  | fuel + 1, s, b =>
    match matAt re s b with
    | some _ => true
    | none =>
      match s with
      | [] => false
      | _ :: r => tryFrom re fuel r false

/-- JavaScript `re.test(s)`: the pattern may match anywhere in the subject. -/
def reTest (re : RE) (s : JStr) : Bool := tryFrom re (s.length + 1) s true

/-- Worker for `jsMatchAll`: scan left to right, collecting the capture map
of each match; an empty match advances by one character. -/
def matchAllGo (re : RE) : Nat → JStr → Bool → List (List (Nat × JStr))
  | 0, _, _ => []
  | fuel + 1, s, b =>
    match matAt re s b with
    | some (len, caps) =>
      if len = 0 then
        caps :: (match s with
          | [] => []
          | _ :: r => matchAllGo re fuel r false)
      else
        caps :: matchAllGo re fuel (s.drop len) false
    | none =>
      match s with
      | [] => []
      | _ :: r => matchAllGo re fuel r false

/-- JavaScript `s.matchAll(re)` with the `g` flag: the capture maps of all
matches, left to right. -/
def jsMatchAll (re : RE) (s : JStr) : List (List (Nat × JStr)) :=
  matchAllGo re (s.length + 2) s true

/-- Read a maximal digit sequence (at least one digit). -/
def readDigitsGo : JStr → Nat → Nat × JStr
  | [], acc => (acc, [])
  | c :: r, acc =>
    if c.isDigit then readDigitsGo r (acc * 10 + (c.toNat - 48)) else (acc, c :: r)

/-- Read a digit sequence, failing when the input does not start with one. -/
def readDigits (s : JStr) : Option (Nat × JStr) :=
  match s with
  | c :: _ => if c.isDigit then some (readDigitsGo s 0) else none
  | [] => none

/-- Greedy or lazy option node. -/
def optRE (lz : Bool) (a : RE) : RE :=
  if lz then .alt .eps a else .alt a .eps

/-- Exactly `n` copies of `a`, sequenced. -/
def repExact (a : RE) : Nat → RE
  | 0 => .eps
  | n + 1 => .seq a (repExact a n)

/-- At most `n` copies of `a`. -/
def repUpTo (lz : Bool) (a : RE) : Nat → RE
  | 0 => .eps
  | n + 1 => optRE lz (.seq a (repUpTo lz a n))

/-- Read an optional lazy marker `?` after a quantifier. -/
def readLazy : JStr → Bool × JStr
  | [] => (false, [])
  | c :: r => if c = '?' then (true, r) else (false, c :: r)

/-- Parse a `{m}` / `{m,}` / `{m,n}` bound (input begins after the `{`).
Returns `none` when the braces do not form a valid bound, in which case the
`{` is a literal, as in JavaScript. -/
def parseBound (s : JStr) : Option (Nat × Option Nat × JStr) :=
  match readDigits s with
  | none => none
  | some (m, rest) =>
    match rest with
    | '}' :: r => some (m, some m, r)
    | ',' :: '}' :: r => some (m, none, r)
    | ',' :: r2 =>
      match readDigits r2 with
      | some (n, '}' :: r3) => some (m, some n, r3)
      | _ => none
    | _ => none

/-- Apply an optional postfix quantifier to a parsed atom.  Always succeeds;
an invalid `{` bound leaves the input untouched (the `{` then parses as a
literal atom, as in JavaScript). -/
def parseQuant (a : RE) (s : JStr) : RE × JStr :=
  match s with
  | [] => (a, [])
  | c :: r =>
    if c = '*' then
      let (lz, r') := readLazy r
      (.star lz a, r')
    else if c = '+' then
      let (lz, r') := readLazy r
      (.seq a (.star lz a), r')
    else if c = '?' then
      let (lz, r') := readLazy r
      (optRE lz a, r')
    else if c = '{' then
      match parseBound r with
      | some (m, some n, r2) =>
        let (lz, r') := readLazy r2
        (.seq (repExact a m) (repUpTo lz a (n - m)), r')
      | some (m, none, r2) =>
        let (lz, r') := readLazy r2
        (.seq (repExact a m) (.star lz a), r')
      | none => (a, c :: r)
    else (a, c :: r)

/-- Translate a class escape character to a class item. -/
def clsEscItem (c : Char) : ClsItem :=
  if c = 'd' then .ptag .digit false
  else if c = 'D' then .ptag .digit true
  else if c = 'w' then .ptag .word false
  else if c = 'W' then .ptag .word true
  else if c = 's' then .ptag .space false
  else if c = 'S' then .ptag .space true
  else if c = 'n' then .one '\n'
  else if c = 't' then .one '\t'
  else if c = 'r' then .one '\r'
  else if c = 'f' then .one (Char.ofNat 12)
  else if c = 'v' then .one (Char.ofNat 11)
  else .one c

/-- Parse bracket-class items up to the closing `]`; fails at end of input
with the class unclosed (JavaScript SyntaxError). -/
def parseClsItems : Nat → JStr → Option (List ClsItem × JStr)
  | 0, _ => none
  | _ + 1, [] => none
  | _ + 1, ']' :: r => some ([], r)
  | fuel + 1, '\\' :: c :: r => do
    let (items, rest) ← parseClsItems fuel r
    some (clsEscItem c :: items, rest)
  | _ + 1, ['\\'] => none
  | fuel + 1, c :: '-' :: d :: r =>
    if d = ']' then do
      let (items, rest) ← parseClsItems fuel (']' :: r)
      some (.one c :: .one '-' :: items, rest)
    else do
      let (items, rest) ← parseClsItems fuel r
      some (.range c d :: items, rest)
  | fuel + 1, c :: r => do
    let (items, rest) ← parseClsItems fuel r
    some (.one c :: items, rest)

/-- Translate an atom-level escape `\\c` to a node.  Word boundaries and
backreferences are outside the model. -/
def escAtom (c : Char) : Option RE :=
  if c = 'd' then some (.cls false [.ptag .digit false])
  else if c = 'D' then some (.cls false [.ptag .digit true])
  else if c = 'w' then some (.cls false [.ptag .word false])
  else if c = 'W' then some (.cls false [.ptag .word true])
  else if c = 's' then some (.cls false [.ptag .space false])
  else if c = 'S' then some (.cls false [.ptag .space true])
  else if c = 'n' then some (.lit '\n')
  else if c = 't' then some (.lit '\t')
  else if c = 'r' then some (.lit '\r')
  else if c = 'f' then some (.lit (Char.ofNat 12))
  else if c = 'v' then some (.lit (Char.ofNat 11))
  else if c = 'b' || c = 'B' || c.isDigit then none
  else some (.lit c)

mutual

/-- Parse one atom.  The `Nat` state numbers capture groups in order of
their opening parentheses. -/
def parseAtom : Nat → JStr → Nat → Option (RE × JStr × Nat)
  | 0, _, _ => none
  | fuel + 1, s, g =>
    match s with
    | [] => none
    | c :: rest =>
      if c = '(' then
        match rest with
        | '?' :: ':' :: r2 =>
          (match parseAlt fuel r2 g with
           | some (a, ')' :: r4, g1) => some (a, r4, g1)
           | _ => none)
        | '?' :: _ => none
        | _ =>
          (match parseAlt fuel rest (g + 1) with
           | some (a, ')' :: r3, g1) => some (.group g a, r3, g1)
           | _ => none)
      else if c = ')' then none
      else if c = '[' then
        match rest with
        | '^' :: r2 =>
          (match parseClsItems (r2.length + 1) r2 with
           | some (items, r3) => some (.cls true items, r3, g)
           | none => none)
        | _ =>
          (match parseClsItems (rest.length + 1) rest with
           | some (items, r3) => some (.cls false items, r3, g)
           | none => none)
      else if c = '\\' then
        match rest with
        | [] => none
        | e :: r2 =>
          (match escAtom e with
           | some a => some (a, r2, g)
           | none => none)
      else if c = '.' then some (.anyc, rest, g)
      else if c = '^' then some (.bol, rest, g)
      else if c = '$' then some (.eol, rest, g)
      else if c = '*' || c = '+' || c = '?' then none
      else some (.lit c, rest, g)

/-- Parse a concatenation, stopping before `|`, `)` or end of input. -/
def parseSeq : Nat → JStr → Nat → Option (RE × JStr × Nat)
  | 0, _, _ => none
  | fuel + 1, s, g =>
    match s with
    | [] => some (.eps, [], g)
    | c :: rest =>
      if c = '|' || c = ')' then some (.eps, c :: rest, g)
      else do
        let (a, s1, g1) ← parseAtom fuel (c :: rest) g
        let (aq, s2) := parseQuant a s1
        let (b, s3, g2) ← parseSeq fuel s2 g1
        some (.seq aq b, s3, g2)

/-- Parse an alternation. -/
def parseAlt : Nat → JStr → Nat → Option (RE × JStr × Nat)
  | 0, _, _ => none
  | fuel + 1, s, g => do
    let (a, s1, g1) ← parseSeq fuel s g
    match s1 with
    | '|' :: r => do
      let (b, s2, g2) ← parseAlt fuel r g1
      some (.alt a b, s2, g2)
    | _ => some (a, s1, g1)

end

/-- JavaScript `new RegExp(src)`: `none` models the constructor throwing a
SyntaxError. -/
def compileRE (s : JStr) : Option RE :=
  match parseAlt (3 * s.length + 4) s 1 with
  | some (re, [], _) => some re
  | _ => none

/-- The characters escaped by the matcher fallback
`r.matcher.replace(/[.*+?^$\x7b\x7d()|[\]\\]/g, '\\$&')`. -/
def metaChars : List Char :=
  ['.', '*', '+', '?', '^', '$', '{', '}', '(', ')', '|', '[', ']', '\\']

/-- Membership test for `metaChars`. -/
def isMetaChar (c : Char) : Bool := decide (c ∈ metaChars)

/-- Escape every regex metacharacter with a backslash. -/
def escapeMeta : JStr → JStr
  | [] => []
  | c :: r => if isMetaChar c then '\\' :: c :: escapeMeta r else c :: escapeMeta r

/-- Matcher compilation from `TextToJson.execute`: try the string as a regex;
on SyntaxError fall back to the escaped pattern anchored at line start.  The
`getD` default is unreachable: compiling the escaped pattern always succeeds
(proved below). -/
def compileMatcher (m : JStr) : RE :=
  match compileRE m with
  | some re => re
  | none => (compileRE ('^' :: escapeMeta m)).getD .eps

/-!
Value casting (`castValue`) and the platform primitives it uses:
`Number(...)`, `parseInt(...)`, `JSON.parse(...)`.  Non-integer numerics
(floats, hex, exponents) are outside the model and collapse to the NaN
marker; no claim depends on them.
-/

/-- The effect of `value.replace(/^0+(?!$)/, '')`: drop leading zeros but
keep a final lone zero. -/
def stripLeadZeros (s : JStr) : JStr :=
  match s.dropWhile (fun c => c = '0') with
  | [] => if s.isEmpty then [] else ['0']
  | r => r

/-- Numeric value of a digit string. -/
def digitsToNat (s : JStr) : Nat :=
  s.foldl (fun acc c => acc * 10 + (c.toNat - 48)) 0

/-- JavaScript `Number(s)` restricted to integers: whitespace-trimmed signed
digit strings; the empty string is `0`; everything else is NaN (floats are
outside the model). -/
def jsNumber (s : JStr) : JVal :=
  let t := jsTrim s
  match t with
  | [] => .num 0
  | '-' :: ds =>
    if !ds.isEmpty && ds.all Char.isDigit then .num (-(digitsToNat ds : Int)) else .nanv
  | '+' :: ds =>
    if !ds.isEmpty && ds.all Char.isDigit then .num (digitsToNat ds) else .nanv
  | ds => if ds.all Char.isDigit then .num (digitsToNat ds) else .nanv

/-- JavaScript `parseInt(s, 10)`: skip leading whitespace, optional sign,
then the maximal digit run; `none` models NaN. -/
def jsParseIntRaw (s : JStr) : Option Int :=
  let t := s.dropWhile jsWS
  let core : JStr → Option Nat := fun u =>
    let ds := u.takeWhile Char.isDigit
    if ds.isEmpty then none else some (digitsToNat ds)
  match t with
  | '-' :: r => (core r).map (fun n => -(n : Int))
  | '+' :: r => (core r).map (fun n => (n : Int))
  | r => (core r).map (fun n => (n : Int))

/-- The decode engine's count read
`parseInt(parentJson[countField], 10) || 0`: the property value is coerced
to a string, parsed, and NaN (or a missing property, which stringifies to
"undefined") collapses to 0. -/
def jsParseIntOr0 (ov : Option JVal) : Int :=
  let s := match ov with
    | some v => jsString v
    | none => "undefined".toList
  match jsParseIntRaw s with
  | some n => n
  | none => 0

/-- Whitespace skipped between JSON tokens. -/
def jpSkip (s : JStr) : JStr :=
  s.dropWhile (fun c => c = ' ' || c = '\t' || c = '\n' || c = '\r')

/-- Parse a JSON string body after the opening quote. -/
def jpStrBody : Nat → JStr → JStr → Option (JStr × JStr)
  | 0, _, _ => none
  | _ + 1, acc, '"' :: r => some (acc.reverse, r)
  | fuel + 1, acc, '\\' :: c :: r =>
    if c = 'n' then jpStrBody fuel ('\n' :: acc) r
    else if c = 't' then jpStrBody fuel ('\t' :: acc) r
    else if c = 'r' then jpStrBody fuel ('\r' :: acc) r
    else if c = 'b' then jpStrBody fuel (Char.ofNat 8 :: acc) r
    else if c = 'f' then jpStrBody fuel (Char.ofNat 12 :: acc) r
    else if c = '"' || c = '\\' || c = '/' then jpStrBody fuel (c :: acc) r
    else none
  | _ + 1, _, ['\\'] => none
  | fuel + 1, acc, c :: r => jpStrBody fuel (c :: acc) r
  | _ + 1, _, [] => none

/-- Parse a JSON number token; non-integer numerics consume their characters
but yield the NaN marker (floats are outside the model). -/
def jpNumber (s : JStr) : Option (JVal × JStr) :=
  let signed : JStr → Option (Bool × JStr) := fun u =>
    match u with
    | '-' :: r => some (true, r)
    | r => some (false, r)
  match signed s with
  | some (neg, r) =>
    let ds := r.takeWhile Char.isDigit
    if ds.isEmpty then none
    else
      let rest := r.drop ds.length
      match rest with
      | '.' :: r2 =>
        let fs := r2.takeWhile Char.isDigit
        if fs.isEmpty then none else some (.nanv, r2.drop fs.length)
      | _ =>
        some (.num (if neg then -(digitsToNat ds : Int) else (digitsToNat ds : Int)), rest)
  | none => none

/-- Items of a JSON array, after the first value has been found to exist. -/
def jpArrItems (pv : JStr → Option (JVal × JStr)) : Nat → JStr → Option (List JVal × JStr)
  | 0, _ => none
  | fuel + 1, s => do
    let (v, r) ← pv s
    match jpSkip r with
    | ',' :: r2 => do
      let (vs, r3) ← jpArrItems pv fuel (jpSkip r2)
      some (v :: vs, r3)
    | ']' :: r2 => some ([v], r2)
    | _ => none

/-- Members of a JSON object, after the first member has been found to exist. -/
def jpObjItems (pv : JStr → Option (JVal × JStr)) : Nat → JStr → Option (List (JStr × JVal) × JStr)
  | 0, _ => none
  | fuel + 1, s =>
    match jpSkip s with
    | '"' :: r => do
      let (key, r1) ← jpStrBody (r.length + 1) [] r
      match jpSkip r1 with
      | ':' :: r2 => do
        let (v, r3) ← pv (jpSkip r2)
        match jpSkip r3 with
        | ',' :: r4 => do
          let (ms, r5) ← jpObjItems pv fuel r4
          some ((key, v) :: ms, r5)
        | '\x7d' :: r4 => some ([(key, v)], r4)
        | _ => none
      | _ => none
    | _ => none

/-- Parse one JSON value. -/
def jpVal : Nat → JStr → Option (JVal × JStr)
  | 0, _ => none
  | fuel + 1, s =>
    match jpSkip s with
    | 't' :: 'r' :: 'u' :: 'e' :: r => some (.bool true, r)
    | 'f' :: 'a' :: 'l' :: 's' :: 'e' :: r => some (.bool false, r)
    | 'n' :: 'u' :: 'l' :: 'l' :: r => some (.null, r)
    | '"' :: r => (jpStrBody (r.length + 1) [] r).map (fun p => (.str p.1, p.2))
    | '[' :: r =>
      (match jpSkip r with
       | ']' :: r2 => some (.arr [], r2)
       | r2 => (jpArrItems (jpVal fuel) (r2.length + 1) r2).map (fun p => (.arr p.1, p.2)))
    | '\x7b' :: r =>
      (match jpSkip r with
       | '\x7d' :: r2 => some (.obj [], r2)
       | r2 => (jpObjItems (jpVal fuel) (r2.length + 1) r2).map (fun p => (.obj p.1, p.2)))
    | r => jpNumber r

/-- JavaScript `JSON.parse(s)`; `none` models the thrown SyntaxError. -/
def jsonParse (s : JStr) : Option JVal :=
  match jpVal (s.length + 1) s with
  | some (v, rest) => if (jpSkip rest).isEmpty then some v else none
  | none => none

/-- The `castValue` helper of `TextToJson.node.ts`: cast an extracted raw
string to the configured output type.  The date format string is accepted
but unused, exactly as in the source. -/
def castValue (value : JStr) (ty : JStr) : JVal :=
  if ty = "number".toList then jsNumber (stripLeadZeros value)
  else if ty = "boolean".toList then
    .bool (["true".toList, "1".toList, "yes".toList].contains (jsToLower value))
  else if ty = "date".toList then .date value
  else if ty = "json".toList then
    match jsonParse value with
    | some v => v
    | none => .str value
  else .str value

/-!
Decode engine (`TextToJson.node.ts`, `execute`).  A `RecordDef` is the typed
definition produced from one raw UI record; `parseLine` extracts one line
into an object, `parseBlock` recursively consumes a parent line plus its
count-driven child blocks, and `rootLoop` scans the whole line array.  The
thrown JavaScript errors are modelled by `JErr`; `fuelOut` is an artefact of
the fuel embedding and is proved unreachable for the canonical fuel.
-/

/-- Thrown JavaScript errors (plus the embedding's fuel marker). -/
inductive JErr where
  | schemaError
  | typeError
  | syntaxError
  | fuelOut
deriving DecidableEq

/-- Effectful map over a list in `Except`, keeping order and stopping at the
first error (the behaviour of `Array.from(..., f)` over a throwing callback). -/
def mapME {α β : Type} (g : α → Except JErr β) : List α → Except JErr (List β)
  | [] => .ok []
  | x :: xs => do
    let y ← g x
    let ys ← mapME g xs
    .ok (y :: ys)

/-- One decode field definition (`FieldDefinition`). -/
structure DField where
  name : JStr
  ftype : JStr
  start : Nat
  length : Nat
  index : Nat
  regex : JStr
  outputType : JStr
  dateFormat : JStr

/-- One decode child link (`ChildDefinition`). -/
structure ChildDef where
  countField : JStr
  childRecordType : JStr
  childrenFieldName : JStr

/-- One typed decode record definition (`RecordDefinition`). -/
structure RecordDef where
  recordType : JStr
  matcher : RE
  delimiter : JStr
  fields : List DField
  childDefinitions : Option (List ChildDef)

/-- A raw decode record definition as it leaves the UI, before matcher
compilation. -/
structure RawRecordDef where
  recordType : JStr
  matcher : JStr
  delimiter : JStr
  fields : List DField
  childDefinitions : Option (List ChildDef)

/-- The typed-definition construction of `TextToJson.execute` (the map over
`recordDefsRaw`); only the matcher changes representation. -/
def buildDef (r : RawRecordDef) : RecordDef :=
  { recordType := r.recordType
    matcher := compileMatcher r.matcher
    delimiter := r.delimiter
    fields := r.fields
    childDefinitions := r.childDefinitions }

/-- Typed definitions for all raw records, in declaration order. -/
def buildDefs (rs : List RawRecordDef) : List RecordDef := rs.map buildDef

/-- The registry `Object.fromEntries(recordDefs.map(d => [d.recordType, d]))`:
insertion order with later duplicates overwriting in place. -/
def recordDefsMap (defs : List RecordDef) : List (JStr × RecordDef) :=
  defs.foldl (fun m d => setKey m d.recordType d) []

/-- Line preparation: strip the BOM, split on `\r?\n`, drop blank lines. -/
def linesOf (text : JStr) : List JStr :=
  (splitNL (stripBOM text)).filter (fun l => !(jsTrim l).isEmpty)

/-- Extract one field's value from a line (the three branches of
`parseLine`).  `delimitedArray` can throw: a SyntaxError from
`new RegExp(field.regex, 'g')`, or a TypeError from `m[1].trim()` when the
pattern has no participating first capture group. -/
def extractField (delim : JStr) (line : JStr) (f : DField) : Except JErr JVal :=
  if f.ftype = "delimitedArray".toList then do
    let re ←
      match compileRE (if f.regex.isEmpty then "\\[(.*?)\\]".toList else f.regex) with
      | some re => Except.ok re
      | none => Except.error JErr.syntaxError
    let raws ← mapME (fun caps =>
      match capGet caps 1 with
      | some g => Except.ok (jsTrim g)
      | none => Except.error JErr.typeError) (jsMatchAll re line)
    Except.ok (.arr (raws.map (fun v => castValue v f.outputType)))
  else if f.ftype = "delimited".toList then
    let parts := if delim.isEmpty then [line] else splitOnStr delim line
    let raw :=
      match parts.get? f.index with
      | some p => jsTrim p
      | none => []
    Except.ok (castValue raw f.outputType)
  else
    Except.ok (castValue (jsTrim (substrJS line f.start f.length)) f.outputType)

/-- Parse a single line according to a record definition (`parseLine`):
extract and cast every field in order, then tag the object with its record
type. -/
def parseLine (d : RecordDef) (line : JStr) : Except JErr JObj := do
  let obj ← d.fields.foldlM (fun o f => do
    let v ← extractField d.delimiter line f
    Except.ok (setKey o f.name v)) []
  Except.ok (setKey obj "__recordType".toList (.str d.recordType))

/-- The inner child loop of `parseBlock`
(`for (let i = 0; i < count && idx < lines.length; i++)`), parameterised by
the block parser for the next nesting level. -/
def parseChildrenWith (pb : Nat → Option RecordDef → Except JErr (JObj × Nat))
    (len : Nat) (ocd : Option RecordDef) : Nat → Nat → Except JErr (List JObj × Nat)
  | 0, idx => .ok ([], idx)
  | c + 1, idx =>
    if idx < len then do
      let (child, nextIdx) ← pb idx ocd
      let (rest, finalIdx) ← parseChildrenWith pb len ocd c nextIdx
      .ok (child :: rest, finalIdx)
    else .ok ([], idx)

/-- The loop over `def.childDefinitions` in `parseBlock`: read the count
from the parent object, look the child schema up, consume the child blocks
and, when `childrenFieldName` is truthy, attach them to the parent. -/
def processChildDefs (pb : Nat → Option RecordDef → Except JErr (JObj × Nat))
    (dmap : List (JStr × RecordDef)) (len : Nat) :
    List ChildDef → JObj → Nat → Except JErr (JObj × Nat)
  | [], obj, idx => .ok (obj, idx)
  | cd :: rest, obj, idx => do
    let count := jsParseIntOr0 (lookupKey obj cd.countField)
    let ocs := lookupKey dmap cd.childRecordType
    let (children, idx') ← parseChildrenWith pb len ocs count.toNat idx
    let obj' :=
      if cd.childrenFieldName.isEmpty then obj
      else setKey obj cd.childrenFieldName (.arr (children.map JVal.obj))
    processChildDefs pb dmap len rest obj' idx'

/-- Recursive block parser (`parseBlock`): parse the line at `startIdx`,
then consume child blocks for each child link.  A `none` definition models
the unchecked `recordDefsMap[childDef.childRecordType]` lookup coming back
`undefined`, which makes `parseLine` throw a TypeError on `def.fields`.
Fuel bounds the nesting depth only; the canonical fuel `lines.length + 1`
is proved sufficient below. -/
def parseBlock (lines : List JStr) (dmap : List (JStr × RecordDef)) :
    Nat → Nat → Option RecordDef → Except JErr (JObj × Nat)
  | 0, _, _ => .error .fuelOut
  | fuel + 1, startIdx, od =>
    match od with
    | none => .error .typeError
    | some d => do
      let parentJson ← parseLine d (lines.getD startIdx [])
      match d.childDefinitions with
      | none => .ok (parentJson, startIdx + 1)
      | some cds =>
        processChildDefs (parseBlock lines dmap fuel) dmap lines.length cds
          parentJson (startIdx + 1)

/-- The root scanning loop of `TextToJson.execute`: classify the current
line with the first matching definition, parse a block there, or skip one
unmatched line. -/
def rootLoop (lines : List JStr) (dmap : List (JStr × RecordDef))
    (defs : List RecordDef) : Nat → Nat → Except JErr (List JObj)
  | 0, _ => .error .fuelOut
  | fuel + 1, idx =>
    if idx < lines.length then
      match defs.find? (fun d => reTest d.matcher (lines.getD idx [])) with
      | none => rootLoop lines dmap defs fuel (idx + 1)
      | some d => do
        let (item, nextIdx) ← parseBlock lines dmap (lines.length + 1) idx (some d)
        let rest ← rootLoop lines dmap defs fuel nextIdx
        .ok (item :: rest)
    else .ok []

/-- The aggregation accumulator, pre-seeded with one empty array per
declared record type (in declaration order, duplicates overwriting). -/
def aggregateInit (defs : List RecordDef) : List (JStr × List JObj) :=
  defs.foldl (fun m d => setKey m d.recordType []) []

/-- `aggregated[key].push(rest)`: a TypeError when the key is absent
(pushing onto `undefined`). -/
def aggPush (m : List (JStr × List JObj)) (k : JStr) (o : JObj) :
    Except JErr (List (JStr × List JObj)) :=
  match lookupKey m k with
  | some xs => .ok (setKey m k (xs ++ [o]))
  | none => .error .typeError

/-- The property key under which an item is aggregated: its `__recordType`
value coerced to a string (a missing tag stringifies to "undefined"). -/
def itemTag (o : JObj) : JStr :=
  match lookupKey o "__recordType".toList with
  | some v => jsString v
  | none => "undefined".toList

/-- Group the parsed items by their `__recordType` tag, removing the tag
from each stored object (`const { __recordType, ...rest } = json`). -/
def aggregateItems (defs : List RecordDef) (items : List JObj) :
    Except JErr (List (JStr × List JObj)) :=
  items.foldlM (fun m item =>
    aggPush m (itemTag item) (removeKey item "__recordType".toList)) (aggregateInit defs)

/-- The aggregated output object as a JSON value. -/
def aggToJVal (m : List (JStr × List JObj)) : JVal :=
  .obj (m.map (fun e => (e.1, JVal.arr (e.2.map JVal.obj))))

/-- The decode pipeline for one input item of `TextToJson.execute`:
validate the schema set, build the registry, split the text into lines, run
the root loop, and shape the output for the selected mode.  The result list
is the sequence of produced `json` payloads. -/
def decodeText (defs : List RecordDef) (text : JStr) (aggregate : Bool) :
    Except JErr (List JVal) :=
  if defs.isEmpty then .error .schemaError
  else
    let dmap := recordDefsMap defs
    let lines := linesOf text
    match rootLoop lines dmap defs (lines.length + 1) 0 with
    | .error e => .error e
    | .ok items =>
      if aggregate then
        match aggregateItems defs items with
        | .error e => .error e
        | .ok m => .ok [aggToJVal m]
      else .ok (items.map JVal.obj)

/-!
Encode engine (`JsonToText.node.ts`, the later snapshot with
variable-length support).  `formatRecord` renders one object into a line
and recursively appends the lines of its child arrays; the root loop
resolves each definition's `jsonPath` in the input value and formats what
it finds there.
-/

/-- One encode field definition. -/
structure EField where
  valueType : JStr
  comment : JStr
  jsonKey : JStr
  fixedValue : JStr
  length : Nat
  padChar : JStr
  padDir : JStr
  variableLength : Bool
  pre : JStr
  suf : JStr

/-- One encode child link. -/
structure EChild where
  childrenFieldName : JStr
  childRecordType : JStr

/-- One encode record definition. -/
structure ERecordDef where
  recordType : JStr
  jsonPath : JStr
  fields : List EField
  childDefinitions : List EChild

/-- Plain property read `v[k]`: throws a TypeError on `null`; yields
`undefined` (`none`) on scalars; numeric-string indexing on arrays.  (The
built-in properties of strings and arrays, such as `length`, are outside
the model.) -/
def jsGetProp (v : JVal) (k : JStr) : Except JErr (Option JVal) :=
  match v with
  | .null => .error .typeError
  | .obj o => .ok (lookupKey o k)
  | .arr xs =>
    match k with
    | [] => .ok none
    | '0' :: [] => .ok (xs.get? 0)
    | c :: r =>
      if c ≠ '0' && (c :: r).all Char.isDigit then .ok (xs.get? (digitsToNat (c :: r)))
      else .ok none
  | _ => .ok none

/-- Optional-chained property read `o?.[k]` used by `getByPath`: `null` and
`undefined` receivers yield `undefined` instead of throwing. -/
def jsGetPropOpt (ov : Option JVal) (k : JStr) : Option JVal :=
  match ov with
  | none => none
  | some .null => none
  | some v =>
    match jsGetProp v k with
    | .ok r => r
    | .error _ => none

/-- The `getByPath` helper of `JsonToText.execute`: an empty path returns
the object itself; otherwise each dot-separated key is read with optional
chaining. -/
def getByPath (root : JVal) (path : JStr) : Option JVal :=
  if path.isEmpty then some root
  else (splitOnStr ['.'] path).foldl jsGetPropOpt (some root)

/-- Render one field against the source object (the field loop body of
`formatRecord`): choose the literal or the property value, stringify it
(`null`/`undefined` to the empty string), then either wrap it for a
variable-length field or truncate/pad it to the fixed width. -/
def renderField (f : EField) (v : JVal) : Except JErr JStr :=
  match (if f.valueType = "fixed".toList
         then Except.ok (some (JVal.str f.fixedValue))
         else jsGetProp v f.jsonKey) with
  | .error e => .error e
  | .ok rawVal =>
    let strRaw : JStr :=
      match rawVal with
      | none => []
      | some .null => []
      | some w => jsString w
    if f.variableLength then
      .ok (f.pre ++ strRaw ++ f.suf)
    else
      if f.length < strRaw.length then
        .ok (strRaw.take f.length)
      else if strRaw.length < f.length then
        let padStr := repeatJ f.padChar (f.length - strRaw.length)
        .ok (if f.padDir = "left".toList then padStr ++ strRaw else strRaw ++ padStr)
      else
        .ok strRaw

/-- Render the parent line of a record: the rendered fields concatenated in
declaration order. -/
def renderLine (d : ERecordDef) (v : JVal) : Except JErr JStr :=
  d.fields.foldlM (fun acc f => do
    let s ← renderField f v
    Except.ok (acc ++ s)) []

/-- The child loop of `formatRecord`, parameterised by the formatter for
the next nesting level: for each child link, when the named property holds
an array and the child record type resolves, append the lines of every
element in order; an unknown child record type is skipped. -/
def formatChildrenWith (fr : ERecordDef → JVal → Except JErr (List JStr))
    (defs : List ERecordDef) : List EChild → JVal → Except JErr (List JStr)
  | [], _ => .ok []
  | cd :: rest, v => do
    let childrenVal ← jsGetProp v cd.childrenFieldName
    let fromThis ←
      match childrenVal with
      | some (.arr children) =>
        match defs.find? (fun d => decide (d.recordType = cd.childRecordType)) with
        | none => Except.ok []
        | some schema =>
          children.foldlM (fun acc childObj => do
            let ls ← fr schema childObj
            Except.ok (acc ++ ls)) ([] : List JStr)
      | _ => Except.ok []
    let fromRest ← formatChildrenWith fr defs rest v
    .ok (fromThis ++ fromRest)

/-- Recursive record formatter (`formatRecord`): one line for the record
itself followed by the lines of its children.  Fuel bounds the recursion
depth through child arrays. -/
def formatRecord (defs : List ERecordDef) : Nat → ERecordDef → JVal → Except JErr (List JStr)
  | 0, _, _ => .error .fuelOut
  | fuel + 1, d, v => do
    let line ← renderLine d v
    let childLines ← formatChildrenWith (formatRecord defs fuel) defs d.childDefinitions v
    .ok (line :: childLines)

/-- The root loop body for one encode definition: resolve its `jsonPath`;
an array is formatted element by element, a single (non-null) object once,
and anything else contributes nothing. -/
def encodeRootLines (defs : List ERecordDef) (fuel : Nat) (d : ERecordDef) (root : JVal) :
    Except JErr (List JStr) :=
  match getByPath root d.jsonPath with
  | none => .ok []
  | some v =>
    match v with
    | .arr xs =>
      xs.foldlM (fun acc x => do
        let ls ← formatRecord defs fuel d x
        Except.ok (acc ++ ls)) []
    | .obj o => formatRecord defs fuel d (.obj o)
    | .date r => formatRecord defs fuel d (.date r)
    | _ => .ok []

/-- The encode pipeline for one input item of `JsonToText.execute`:
validate the schema set, collect the lines of every definition in
declaration order, and join them with the configured newline. -/
def encodeText (defs : List ERecordDef) (fuel : Nat) (newLine : JStr) (root : JVal) :
    Except JErr JStr :=
  if defs.isEmpty then .error .schemaError
  else
    match defs.foldlM (fun acc d => do
        let ls ← encodeRootLines defs fuel d root
        Except.ok (acc ++ ls)) ([] : List JStr) with
    | .error e => .error e
    | .ok allLines => .ok (jsJoin newLine allLines)

/-!
Auxiliary definitions used by the theorems below.
-/

/-- The regex denoting a literal character sequence. -/
def chainLits : JStr → RE
  | [] => .eps
  | c :: cs => .seq (.lit c) (chainLits cs)

/-- Concatenation of a list of lists. -/
def catAll {α : Type} : List (List α) → List α
  | [] => []
  | l :: ls => l ++ catAll ls

/-- Characters that begin a postfix quantifier. -/
def quantChar (c : Char) : Bool :=
  c = '*' || c = '+' || c = '?' || c = '{'

/-- A record definition whose block consumes exactly its own line: it
declares no child links (either the raw `childDefinitions` collection was
absent, or it was present but empty). -/
def noChildDefs (d : RecordDef) : Prop :=
  d.childDefinitions = none ∨ d.childDefinitions = some []

/-- A record definition none of whose fields is a `delimitedArray` (the only
field kind whose extraction can throw). -/
def plainFields (d : RecordDef) : Prop :=
  ∀ f ∈ d.fields, f.ftype ≠ "delimitedArray".toList

/-- Shorthand for a fixed-width decode field with string output. -/
def exField (n : String) (st len : Nat) : DField :=
  { name := n.toList, ftype := "fixed".toList, start := st, length := len,
    index := 0, regex := [], outputType := "string".toList, dateFormat := [] }

/-- Shorthand for a decode child link. -/
def exChild (cf crt cfn : String) : ChildDef :=
  { countField := cf.toList, childRecordType := crt.toList, childrenFieldName := cfn.toList }

/-- Shorthand for a fixed-width encode field reading JSON key `k`. -/
def exEField (k : String) (len : Nat) (pc dir : String) : EField :=
  { valueType := "jsonKey".toList, comment := [], jsonKey := k.toList, fixedValue := [],
    length := len, padChar := pc.toList, padDir := dir.toList, variableLength := false,
    pre := [], suf := [] }

/-- C1 scenario: record type A whose count field `n` drives children of
type C. -/
def c1defA : RecordDef :=
  { recordType := "A".toList, matcher := compileMatcher "A".toList, delimiter := [],
    fields := [exField "n" 1 1], childDefinitions := some [exChild "n" "C" "kids"] }

/-- C1 counterexample scenario: a child type C that itself consumes
count-driven children (self-referential). -/
def c1defC : RecordDef :=
  { recordType := "C".toList, matcher := compileMatcher "C".toList, delimiter := [],
    fields := [exField "m" 1 1], childDefinitions := some [exChild "m" "C" "kids"] }

/-- C1 witness scenario: a child type C whose blocks are single lines. -/
def c1defCplain : RecordDef :=
  { recordType := "C".toList, matcher := compileMatcher "C".toList, delimiter := [],
    fields := [exField "m" 1 1], childDefinitions := none }

/-- C2 scenario: a fixed-width field of declared length 3 with an empty
padding string. -/
def c2field : EField := exEField "v" 3 "" "right"

/-- C2 witness scenario: the same field with the default single-space pad. -/
def c2wfield : EField := exEField "v" 3 " " "right"

/-- C2 scenario source object. -/
def c2obj : JVal := .obj [("v".toList, .str "7".toList)]

/-- C4 scenario: first definition named R. -/
def c4d1 : RecordDef :=
  { recordType := "R".toList, matcher := compileMatcher "R".toList, delimiter := [],
    fields := [exField "a" 0 1], childDefinitions := none }

/-- C4 scenario: second definition also named R, distinguishable by its
delimiter. -/
def c4d2 : RecordDef :=
  { recordType := "R".toList, matcher := compileMatcher "R".toList, delimiter := ",".toList,
    fields := [exField "b" 0 1], childDefinitions := none }

/-- C5 scenario: a record whose only child link names an unknown record
type Z. -/
def c5def : RecordDef :=
  { recordType := "A".toList, matcher := compileMatcher "A".toList, delimiter := [],
    fields := [exField "n" 1 1], childDefinitions := some [exChild "n" "Z" "kids"] }

/-- C8 witness scenario: an encode definition whose path points at `p`. -/
def c8def : ERecordDef :=
  { recordType := "R".toList, jsonPath := "p".toList, fields := [exEField "v" 2 " " "right"],
    childDefinitions := [] }

/-- Specification-side reading of the root loop for definitions without
child links: classify each line in order, parse the matched ones, skip the
rest.  Proved equal to `rootLoop` under the no-child-links hypothesis. -/
def flatParse (defs : List RecordDef) : List JStr → Except JErr (List JObj)
  | [] => .ok []
  | l :: rest =>
    match defs.find? (fun d => reTest d.matcher l) with
    | none => flatParse defs rest
    | some d => do
      let obj ← parseLine d l
      let objs ← flatParse defs rest
      Except.ok (obj :: objs)

/-- C7 scenario: flat record type A. -/
def c7defA : RecordDef :=
  { recordType := "A".toList, matcher := compileMatcher "A".toList, delimiter := [],
    fields := [exField "x" 1 1], childDefinitions := none }

/-- C7 scenario: flat record type B. -/
def c7defB : RecordDef :=
  { recordType := "B".toList, matcher := compileMatcher "B".toList, delimiter := [],
    fields := [exField "y" 1 1], childDefinitions := none }

/-- The tagged item decoded from an `A1` line. -/
def c7itemA : JObj :=
  [("x".toList, JVal.str "1".toList), ("__recordType".toList, JVal.str "A".toList)]

/-- The tagged item decoded from a `B2` line. -/
def c7itemB : JObj :=
  [("y".toList, JVal.str "2".toList), ("__recordType".toList, JVal.str "B".toList)]

/-- The aggregated (tag-stripped) object for an `A1` line. -/
def c7objA : JObj := [("x".toList, JVal.str "1".toList)]

/-- The aggregated (tag-stripped) object for a `B2` line. -/
def c7objB : JObj := [("y".toList, JVal.str "2".toList)]

/-- C3: a fixed-width cell — the value right-padded with spaces to width `w`. -/
def padSeg (w : Nat) (v : JStr) : JStr := v ++ List.replicate (w - v.length) ' '

/-- C3: a full line tiled from consecutive cells (name/width schema, values). -/
def mkLine : List (JStr × Nat) → List JStr → JStr
  | (_, w) :: fs, v :: vs => padSeg w v ++ mkLine fs vs
  | _, _ => []

/-- C3: one tiled fixed decode field at offset `pos` of width `w`. -/
def tileF (n : JStr) (pos w : Nat) : DField :=
  { name := n, ftype := "fixed".toList, start := pos, length := w, index := 0,
    regex := [], outputType := "string".toList, dateFormat := [] }

/-- C3: the tiled fixed decode fields, starting at offset `pos`. -/
def tileDFields (pos : Nat) : List (JStr × Nat) → List DField
  | [] => []
  | (n, w) :: rest => tileF n pos w :: tileDFields (pos + w) rest

/-- C3: the decode schema of a tiled fixed-width record type. -/
def mkDR (rt mstr : JStr) (fs : List (JStr × Nat)) : RecordDef :=
  { recordType := rt, matcher := compileMatcher mstr, delimiter := [],
    fields := tileDFields 0 fs, childDefinitions := none }

/-- C3: one fixed-width encode field with the default single-space right pad. -/
def mkEField (n : JStr) (w : Nat) : EField :=
  { valueType := "jsonKey".toList, comment := [], jsonKey := n, fixedValue := [],
    length := w, padChar := [' '], padDir := "right".toList, variableLength := false,
    pre := [], suf := [] }

/-- C3: the encode schema mirroring `mkDR` (root path, no children). -/
def mkER (rt : JStr) (fs : List (JStr × Nat)) : ERecordDef :=
  { recordType := rt, jsonPath := [], fields := fs.map (fun p => mkEField p.1 p.2),
    childDefinitions := [] }

/-- C3: the object decoded from one tiled line, before the record tag. -/
def objOf : List (JStr × Nat) → List JStr → JObj
  | (n, _) :: fs, v :: vs => (n, JVal.str v) :: objOf fs vs
  | _, _ => []

/-- C3: the tagged objects decoded from a list of value rows. -/
def objsOf (rt : JStr) (fs : List (JStr × Nat)) (vss : List (List JStr)) : List JObj :=
  vss.map (fun vs => objOf fs vs ++ [("__recordType".toList, JVal.str rt)])

/-- C3 counterexample: the decode schema `h` at [0,1) and `v` at [1,3),
matching lines that contain `R`. -/
def c3dR : RecordDef := mkDR "RT".toList "R".toList [("h".toList, 1), ("v".toList, 2)]

/-- C3 counterexample: the mirrored encode schema. -/
def c3eR : ERecordDef := mkER "RT".toList [("h".toList, 1), ("v".toList, 2)]

/-- C3 counterexample: the object decoded from the line `R a`. -/
def c3item : JObj :=
  [("h".toList, JVal.str "R".toList), ("v".toList, JVal.str "a".toList),
   ("__recordType".toList, JVal.str "RT".toList)]

/-!
Theorems.
-/

theorem escapeMeta_length (m : JStr) : m.length ≤ (escapeMeta m).length := by
  induction m with
  | nil => simp [escapeMeta]
  | cons c cs ih =>
    simp only [escapeMeta]
    by_cases h : isMetaChar c = true
    · simp [h]; omega
    · simp [h]; omega

theorem not_meta_spread (c : Char) (h : isMetaChar c = false) :
    c ≠ '.' ∧ c ≠ '*' ∧ c ≠ '+' ∧ c ≠ '?' ∧ c ≠ '^' ∧ c ≠ '$' ∧ c ≠ '{' ∧ c ≠ '}' ∧
    c ≠ '(' ∧ c ≠ ')' ∧ c ≠ '|' ∧ c ≠ '[' ∧ c ≠ ']' ∧ c ≠ '\\' := by
  simp only [isMetaChar, metaChars, decide_eq_false_iff_not,
    List.mem_cons, List.not_mem_nil, or_false, not_or] at h
  exact h

theorem escAtom_of_meta (c : Char) (h : isMetaChar c = true) :
    escAtom c = some (.lit c) := by
  simp only [isMetaChar, metaChars, decide_eq_true_eq] at h
  fin_cases h <;> decide

theorem escapeMeta_head_not_quant (m : JStr) :
    ∀ c, (escapeMeta m).head? = some c → quantChar c = false := by
  intro c hc
  cases m with
  | nil => simp [escapeMeta] at hc
  | cons d ds =>
    simp only [escapeMeta] at hc
    cases h : isMetaChar d with
    | true =>
      simp [h] at hc
      subst hc; rfl
    | false =>
      simp [h] at hc
      subst hc
      obtain ⟨h1, h2, h3, h4, h5, h6, h7, h8, h9, h10, h11, h12, h13, h14⟩ :=
        not_meta_spread d h
      simp [quantChar, h2, h3, h4, h7]

theorem parseQuant_no_quant (a : RE) (s : JStr)
    (h : ∀ c, s.head? = some c → quantChar c = false) :
    parseQuant a s = (a, s) := by
  cases s with
  | nil => rfl
  | cons c r =>
    have hc := h c rfl
    simp only [quantChar, Bool.or_eq_false_iff, decide_eq_false_iff_not] at hc
    obtain ⟨⟨⟨hc1, hc2⟩, hc3⟩, hc4⟩ := hc
    simp [parseQuant, hc1, hc2, hc3, hc4]

theorem parseAtom_esc (c : Char) (hc : isMetaChar c = true) (rest : JStr) (g fuel : Nat)
    (hf : 1 ≤ fuel) :
    parseAtom fuel ('\\' :: c :: rest) g = some (.lit c, rest, g) := by
  obtain ⟨f, rfl⟩ : ∃ f, fuel = f + 1 := ⟨fuel - 1, by omega⟩
  simp [parseAtom, escAtom_of_meta c hc]

theorem parseAtom_plain (c : Char) (h : isMetaChar c = false) (rest : JStr) (g fuel : Nat)
    (hf : 1 ≤ fuel) :
    parseAtom fuel (c :: rest) g = some (.lit c, rest, g) := by
  obtain ⟨f, rfl⟩ : ∃ f, fuel = f + 1 := ⟨fuel - 1, by omega⟩
  obtain ⟨h1, h2, h3, h4, h5, h6, h7, h8, h9, h10, h11, h12, h13, h14⟩ := not_meta_spread c h
  simp [parseAtom, h1, h2, h3, h4, h5, h6, h9, h10, h12, h14]

theorem parseSeq_escaped (m : JStr) : ∀ (fuel g : Nat), 2 * m.length + 1 ≤ fuel →
    parseSeq fuel (escapeMeta m) g = some (chainLits m, [], g) := by
  induction m with
  | nil =>
    intro fuel g hf
    obtain ⟨f, rfl⟩ : ∃ f, fuel = f + 1 := ⟨fuel - 1, by omega⟩
    simp [parseSeq, escapeMeta, chainLits]
  | cons c cs ih =>
    intro fuel g hf
    obtain ⟨f, rfl⟩ : ∃ f, fuel = f + 1 := ⟨fuel - 1, by omega⟩
    rw [List.length_cons] at hf
    have hf1 : 1 ≤ f := by omega
    have hfs : 2 * cs.length + 1 ≤ f := by omega
    have hq := parseQuant_no_quant (RE.lit c) (escapeMeta cs) (escapeMeta_head_not_quant cs)
    cases h : isMetaChar c with
    | true =>
      have hne1 : ('\\' = '|' || '\\' = ')') = false := by decide
      simp only [escapeMeta, h, if_pos]
      simp only [parseSeq, hne1, Bool.false_eq_true, not_false_iff, if_neg]
      rw [parseAtom_esc c h _ _ _ hf1]
      simp only [Option.bind_eq_bind, Option.some_bind, hq, ih f g hfs, chainLits]
    | false =>
      have hsp := not_meta_spread c h
      have hb : (c = '|' || c = ')') = false := by
        simp only [Bool.or_eq_false_iff, decide_eq_false_iff_not]
        exact ⟨hsp.2.2.2.2.2.2.2.2.2.2.1, hsp.2.2.2.2.2.2.2.2.2.1⟩
      simp only [escapeMeta, h, Bool.false_eq_true, not_false_iff, if_neg]
      simp only [parseSeq, hb, Bool.false_eq_true, not_false_iff, if_neg]
      rw [parseAtom_plain c h _ _ _ hf1]
      simp only [Option.bind_eq_bind, Option.some_bind, hq, ih f g hfs, chainLits]

theorem parseAlt_anchored (m : JStr) (fuel g : Nat) (hf : 2 * m.length + 4 ≤ fuel) :
    parseAlt fuel ('^' :: escapeMeta m) g = some (.seq .bol (chainLits m), [], g) := by
  obtain ⟨f, rfl⟩ : ∃ f, fuel = f + 1 := ⟨fuel - 1, by omega⟩
  have hseq : parseSeq f ('^' :: escapeMeta m) g =
      some (.seq .bol (chainLits m), [], g) := by
    obtain ⟨f1, rfl⟩ : ∃ f1, f = f1 + 1 := ⟨f - 1, by omega⟩
    have hatom : parseAtom f1 ('^' :: escapeMeta m) g = some (.bol, escapeMeta m, g) := by
      obtain ⟨f2, rfl⟩ : ∃ f2, f1 = f2 + 1 := ⟨f1 - 1, by omega⟩
      simp [parseAtom]
    have hq := parseQuant_no_quant RE.bol (escapeMeta m) (escapeMeta_head_not_quant m)
    have hstop : ('^' = '|' || '^' = ')') = false := by decide
    simp only [parseSeq, hstop, Bool.false_eq_true, not_false_iff, if_neg, hatom,
      Option.bind_eq_bind, Option.some_bind, hq,
      parseSeq_escaped m f1 g (by omega)]
  simp only [parseAlt, hseq, Option.bind_eq_bind, Option.some_bind]

theorem compileRE_fallback (m : JStr) :
    compileRE ('^' :: escapeMeta m) = some (.seq .bol (chainLits m)) := by
  unfold compileRE
  have hlen : 2 * m.length + 4 ≤ 3 * ('^' :: escapeMeta m).length + 4 := by
    have := escapeMeta_length m
    simp only [List.length_cons]
    omega
  rw [parseAlt_anchored m _ 1 hlen]

theorem mat_succ_seq {α : Type} (f : Nat) (a b : RE) (s : JStr) (bb : Bool)
    (caps : List (Nat × JStr)) (k : JStr → Bool → List (Nat × JStr) → Option α) :
    mat (f + 1) (.seq a b) s bb caps k =
      mat f a s bb caps (fun s' b' caps' => mat f b s' b' caps' k) := rfl

theorem mat_succ_lit_cons {α : Type} (f : Nat) (c c' : Char) (r : JStr) (bb : Bool)
    (caps : List (Nat × JStr)) (k : JStr → Bool → List (Nat × JStr) → Option α) :
    mat (f + 1) (.lit c) (c' :: r) bb caps k =
      if c' = c then k r false caps else none := rfl

theorem mat_succ_lit_nil {α : Type} (f : Nat) (c : Char) (bb : Bool)
    (caps : List (Nat × JStr)) (k : JStr → Bool → List (Nat × JStr) → Option α) :
    mat (f + 1) (.lit c) [] bb caps k = none := rfl

theorem mat_succ_eps {α : Type} (f : Nat) (s : JStr) (bb : Bool)
    (caps : List (Nat × JStr)) (k : JStr → Bool → List (Nat × JStr) → Option α) :
    mat (f + 1) .eps s bb caps k = k s bb caps := rfl

theorem mat_succ_bol {α : Type} (f : Nat) (s : JStr) (bb : Bool)
    (caps : List (Nat × JStr)) (k : JStr → Bool → List (Nat × JStr) → Option α) :
    mat (f + 1) .bol s bb caps k = if bb then k s bb caps else none := rfl

theorem mat_chain {α : Type} (m : JStr) : ∀ (fuel : Nat) (s : JStr) (b : Bool)
    (caps : List (Nat × JStr)) (k : JStr → Bool → List (Nat × JStr) → Option α),
    m.length + 1 ≤ fuel →
    mat fuel (chainLits m) s b caps k =
      if m.isPrefixOf s then k (s.drop m.length) (if m.isEmpty then b else false) caps
      else none := by
  induction m with
  | nil =>
    intro fuel s b caps k hf
    obtain ⟨f, rfl⟩ : ∃ f, fuel = f + 1 := ⟨fuel - 1, by omega⟩
    rw [chainLits, mat_succ_eps]
    simp [List.isPrefixOf]
  | cons c cs ih =>
    intro fuel s b caps k hf
    obtain ⟨f, rfl⟩ : ∃ f, fuel = f + 1 := ⟨fuel - 1, by omega⟩
    rw [List.length_cons] at hf
    obtain ⟨f', rfl⟩ : ∃ f', f = f' + 1 := ⟨f - 1, by omega⟩
    rw [chainLits, mat_succ_seq]
    cases s with
    | nil =>
      rw [mat_succ_lit_nil]
      simp [List.isPrefixOf]
    | cons c' r =>
      rw [mat_succ_lit_cons]
      by_cases hcc : c' = c
      · subst hcc
        rw [if_pos rfl, ih (f' + 1) r false caps k (by omega)]
        simp only [List.isPrefixOf, List.length_cons, List.drop_succ_cons,
          List.isEmpty_cons, beq_self_eq_true, Bool.true_and, ite_self]
        by_cases hp : cs.isPrefixOf r = true
        · simp [hp]
        · simp at hp
          simp [hp]
      · rw [if_neg hcc]
        have hpf : (c :: cs).isPrefixOf (c' :: r) = false := by
          simp only [List.isPrefixOf, Bool.and_eq_false_iff]
          left
          simp only [beq_eq_false_iff_ne, ne_eq]
          exact fun h => hcc h.symm
        simp [hpf]

theorem reSize_chain (m : JStr) : reSize (chainLits m) = 2 * m.length + 1 := by
  induction m with
  | nil => rfl
  | cons c cs ih => simp [chainLits, reSize, ih]; omega

theorem matAt_fallback (m s : JStr) (b : Bool) :
    matAt (.seq .bol (chainLits m)) s b =
      if b then (if m.isPrefixOf s then some (m.length, []) else none) else none := by
  unfold matAt
  have hge : m.length + 3 ≤ matFuel (RE.seq .bol (chainLits m)) s := by
    unfold matFuel
    rw [reSize, reSize, reSize_chain]
    have h1 : 2 * m.length + 1 + 1 + 1 + 1 ≤
        (2 * m.length + 1 + 1 + 1 + 1) * (s.length + 1) :=
      Nat.le_mul_of_pos_right _ (by omega)
    omega
  obtain ⟨f, hf⟩ : ∃ f, matFuel (RE.seq .bol (chainLits m)) s = f + 1 :=
    ⟨matFuel (RE.seq .bol (chainLits m)) s - 1, by omega⟩
  rw [hf] at hge ⊢
  obtain ⟨f', rfl⟩ : ∃ f', f = f' + 1 := ⟨f - 1, by omega⟩
  rw [mat_succ_seq]
  cases b with
  | false =>
    rw [mat_succ_bol]
    simp
  | true =>
    rw [mat_succ_bol, if_pos rfl]
    rw [mat_chain m (f' + 1) s true [] _ (by omega)]
    by_cases hp : m.isPrefixOf s = true
    · have hlen : m.length ≤ s.length := by
        have hpre : m <+: s := by
          rw [← List.isPrefixOf_iff_prefix]
          exact hp
        exact hpre.length_le
      simp only [hp, if_pos, if_pos trivial, List.length_drop]
      have heq : s.length - (s.length - m.length) = m.length := by omega
      rw [heq]
    · simp at hp
      simp [hp]

theorem tryFrom_fallback_false (m : JStr) :
    ∀ (fuel : Nat) (s : JStr), tryFrom (.seq .bol (chainLits m)) fuel s false = false := by
  intro fuel
  induction fuel with
  | zero => intro s; rfl
  | succ f ih =>
    intro s
    simp only [tryFrom]
    rw [matAt_fallback]
    cases s with
    | nil => rfl
    | cons c r => exact ih r

theorem reTest_fallback (m s : JStr) :
    reTest (.seq .bol (chainLits m)) s = m.isPrefixOf s := by
  rw [reTest]
  simp only [tryFrom]
  rw [matAt_fallback]
  by_cases hp : m.isPrefixOf s = true
  · simp [hp]
  · simp only [Bool.not_eq_true] at hp
    rw [hp]
    simp only [if_pos trivial, if_neg, Bool.false_eq_true, not_false_iff]
    cases s with
    | nil => rfl
    | cons c r => exact tryFrom_fallback_false m _ r

/-- Claim C6: a matcher string that fails to compile as a regex is silently
replaced by a literal-prefix matcher — every metacharacter escaped and the
pattern anchored at line start — so the fallback compilation always succeeds
(no error escapes) and the compiled matcher tests true on exactly the lines
that start with the literal matcher string. -/
theorem claim_C6 (m line : JStr) (hfail : compileRE m = none) :
    compileRE ('^' :: escapeMeta m) = some (.seq .bol (chainLits m)) ∧
    reTest (compileMatcher m) line = m.isPrefixOf line := by
  refine ⟨compileRE_fallback m, ?_⟩
  unfold compileMatcher
  rw [hfail, compileRE_fallback m]
  exact reTest_fallback m line

theorem claim_C6_witness :
    (compileRE ('^' :: escapeMeta "(".toList) =
        some (.seq .bol (chainLits "(".toList)) ∧
      reTest (compileMatcher "(".toList) "(x".toList =
        List.isPrefixOf "(".toList "(x".toList) ∧
    List.isPrefixOf "(".toList "(x".toList = true ∧
    List.isPrefixOf "(".toList "y(".toList = false :=
  ⟨claim_C6 "(".toList "(x".toList rfl, by decide, by decide⟩

theorem repeatJ_length (s : JStr) : ∀ n, (repeatJ s n).length = n * s.length := by
  intro n
  induction n with
  | zero => simp [repeatJ]
  | succ k ih =>
    simp only [repeatJ, List.length_append, ih]
    ring

/-- Claim C2 (amended): for a fixed-width (non-variableLength) field whose
padding string is a single character, every successful render has length
exactly `field.length`, whatever the stringified source value is: longer
values are truncated to the first `length` characters and shorter values
are padded on the configured side.  (With an empty or multi-character
`padChar` the invariant fails; see the counterexample.) -/
theorem claim_C2 (f : EField) (v : JVal) (s : JStr)
    (hvar : f.variableLength = false) (hpad : f.padChar.length = 1)
    (hok : renderField f v = .ok s) : s.length = f.length := by
  unfold renderField at hok
  rcases hraw : (if f.valueType = "fixed".toList
      then Except.ok (some (JVal.str f.fixedValue))
      else jsGetProp v f.jsonKey) with e | rawVal
  · rw [hraw] at hok
    simp at hok
  · rw [hraw] at hok
    simp only [hvar, Bool.false_eq_true, if_neg, not_false_iff] at hok
    set strRaw := (match rawVal with
      | none => ([] : JStr)
      | some .null => ([] : JStr)
      | some w => jsString w) with hstr
    by_cases h1 : f.length < strRaw.length
    · rw [if_pos h1] at hok
      simp only [pure, Except.pure, Except.ok.injEq] at hok
      subst hok
      simp only [List.length_take]
      omega
    · rw [if_neg h1] at hok
      by_cases h2 : strRaw.length < f.length
      · rw [if_pos h2] at hok
        by_cases h3 : f.padDir = "left".toList
        · rw [if_pos h3] at hok
          simp only [pure, Except.pure, Except.ok.injEq] at hok
          subst hok
          simp only [List.length_append, repeatJ_length, hpad]
          omega
        · rw [if_neg h3] at hok
          simp only [pure, Except.pure, Except.ok.injEq] at hok
          subst hok
          simp only [List.length_append, repeatJ_length, hpad]
          omega
      · rw [if_neg h2] at hok
        simp only [pure, Except.pure, Except.ok.injEq] at hok
        subst hok
        omega

theorem claim_C2_witness : (['7', ' ', ' '] : JStr).length = c2wfield.length :=
  claim_C2 c2wfield c2obj ['7', ' ', ' '] rfl rfl rfl

/-- Claim C2 counterexample: the claim quantifies over every fixed-width
field, but a field whose `padChar` is the empty string renders a
shorter-than-length value unchanged (`''.repeat(n)` is empty), so the
rendered segment has length 1 while the field declares length 3. -/
theorem claim_C2_cex :
    c2field.variableLength = false ∧
    renderField c2field c2obj = .ok ['7'] ∧
    (['7'] : JStr).length ≠ c2field.length :=
  ⟨rfl, rfl, by decide⟩

/-- Claim C4: the registry build does not fail on duplicate record-type
names; `Object.fromEntries` silently keeps the later duplicate (last-write
wins), and decoding proceeds without a SchemaError.  This contradicts the
claim, which demands a SchemaError and forbids last-write-wins. -/
theorem claim_C4 :
    lookupKey (recordDefsMap [c4d1, c4d2]) "R".toList = some c4d2 ∧
    c4d1.delimiter ≠ c4d2.delimiter ∧
    decodeText [c4d1, c4d2] [] false = .ok [] :=
  ⟨rfl, by decide, rfl⟩

/-- Claim C5: a child link whose `childRecordType` resolves to no schema is
not skipped: as soon as its count is positive and a line remains, the
undefined schema reaches `parseLine`, which throws a TypeError reading
`def.fields` — the decode call aborts.  Only when the child loop body never
runs (count 0 here) does decoding complete. -/
theorem claim_C5 :
    decodeText [c5def] "A1\nXX".toList false = .error .typeError ∧
    decodeText [c5def] "A0\nXX".toList false =
      .ok [.obj [("n".toList, .str "0".toList),
                 ("__recordType".toList, .str "A".toList),
                 ("kids".toList, .arr [])]] :=
  ⟨rfl, rfl⟩

theorem exc_bind_ok {α β : Type} (a : α) (k : α → Except JErr β) :
    (Except.ok a >>= k) = k a := rfl

theorem exc_bind_err {α β : Type} (e : JErr) (k : α → Except JErr β) :
    ((Except.error e : Except JErr α) >>= k) = Except.error e := rfl

theorem exc_error_ne_iff {α : Type} (e : JErr) :
    ((Except.error e : Except JErr α) ≠ .error .fuelOut) ↔ e ≠ .fuelOut := by
  constructor
  · intro h he
    exact h (by rw [he])
  · intro h hh
    injection hh with h1
    exact h h1

theorem parseBlock_succ (lines : List JStr) (dmap : List (JStr × RecordDef))
    (fuel startIdx : Nat) (od : Option RecordDef) :
    parseBlock lines dmap (fuel + 1) startIdx od =
      (match od with
       | none => .error .typeError
       | some d => do
         let parentJson ← parseLine d (lines.getD startIdx [])
         match d.childDefinitions with
         | none => .ok (parentJson, startIdx + 1)
         | some cds =>
           processChildDefs (parseBlock lines dmap fuel) dmap lines.length cds
             parentJson (startIdx + 1)) := rfl

theorem parseChildrenWith_zero (pb : Nat → Option RecordDef → Except JErr (JObj × Nat))
    (len : Nat) (ocd : Option RecordDef) (idx : Nat) :
    parseChildrenWith pb len ocd 0 idx = .ok ([], idx) := rfl

theorem parseChildrenWith_succ (pb : Nat → Option RecordDef → Except JErr (JObj × Nat))
    (len : Nat) (ocd : Option RecordDef) (c idx : Nat) :
    parseChildrenWith pb len ocd (c + 1) idx =
      (if idx < len then do
        let (child, nextIdx) ← pb idx ocd
        let (rest, finalIdx) ← parseChildrenWith pb len ocd c nextIdx
        Except.ok (child :: rest, finalIdx)
      else .ok ([], idx)) := rfl

theorem processChildDefs_nil (pb : Nat → Option RecordDef → Except JErr (JObj × Nat))
    (dmap : List (JStr × RecordDef)) (len : Nat) (obj : JObj) (idx : Nat) :
    processChildDefs pb dmap len [] obj idx = .ok (obj, idx) := rfl

theorem processChildDefs_cons (pb : Nat → Option RecordDef → Except JErr (JObj × Nat))
    (dmap : List (JStr × RecordDef)) (len : Nat) (cd : ChildDef) (rest : List ChildDef)
    (obj : JObj) (idx : Nat) :
    processChildDefs pb dmap len (cd :: rest) obj idx =
      (do
        let (children, idx') ← parseChildrenWith pb len (lookupKey dmap cd.childRecordType)
          (jsParseIntOr0 (lookupKey obj cd.countField)).toNat idx
        processChildDefs pb dmap len rest
          (if cd.childrenFieldName.isEmpty then obj
           else setKey obj cd.childrenFieldName (.arr (children.map JVal.obj))) idx') := rfl

theorem extractField_ok (delim line : JStr) (f : DField)
    (h : f.ftype ≠ "delimitedArray".toList) :
    ∃ v, extractField delim line f = .ok v := by
  unfold extractField
  rw [if_neg h]
  by_cases h2 : f.ftype = "delimited".toList
  · rw [if_pos h2]
    exact ⟨_, rfl⟩
  · rw [if_neg h2]
    exact ⟨_, rfl⟩

theorem fieldsFold_ok (delim line : JStr) :
    ∀ (fields : List DField) (acc : JObj),
      (∀ f ∈ fields, f.ftype ≠ "delimitedArray".toList) →
      ∃ o, (fields.foldlM (fun o f => do
        let v ← extractField delim line f
        Except.ok (setKey o f.name v)) acc : Except JErr JObj) = .ok o := by
  intro fields
  induction fields with
  | nil => intro acc _; exact ⟨acc, rfl⟩
  | cons f fs ih =>
    intro acc hall
    obtain ⟨v, hv⟩ := extractField_ok delim line f (hall f (by simp))
    obtain ⟨o, ho⟩ := ih (setKey acc f.name v) (fun g hg => hall g (by simp [hg]))
    refine ⟨o, ?_⟩
    simp only [List.foldlM_cons, hv, exc_bind_ok]
    exact ho

theorem parseLine_ok (d : RecordDef) (line : JStr) (h : plainFields d) :
    ∃ o, parseLine d line = .ok o := by
  obtain ⟨o, ho⟩ := fieldsFold_ok d.delimiter line d.fields [] h
  refine ⟨setKey o "__recordType".toList (.str d.recordType), ?_⟩
  unfold parseLine
  simp only [ho, exc_bind_ok]

theorem parseBlock_trivial (lines : List JStr) (dmap : List (JStr × RecordDef))
    (cdef : RecordDef) (htriv : noChildDefs cdef) (fuel idx : Nat) (o : JObj)
    (hline : parseLine cdef (lines.getD idx []) = .ok o) :
    parseBlock lines dmap (fuel + 1) idx (some cdef) = .ok (o, idx + 1) := by
  rw [parseBlock_succ]
  simp only [hline, exc_bind_ok]
  rcases htriv with h | h
  · rw [h]
  · rw [h]
    rfl

theorem parseChildren_trivial (lines : List JStr) (dmap : List (JStr × RecordDef))
    (cdef : RecordDef) (htriv : noChildDefs cdef) (hplain : plainFields cdef) (fuel : Nat) :
    ∀ (c idx : Nat), ∃ cs : List JObj,
      parseChildrenWith (parseBlock lines dmap (fuel + 1)) lines.length (some cdef) c idx =
        .ok (cs, idx + min c (lines.length - idx)) ∧
      cs.length = min c (lines.length - idx) := by
  intro c
  induction c with
  | zero =>
    intro idx
    exact ⟨[], by rw [parseChildrenWith_zero]; simp, by simp⟩
  | succ c ih =>
    intro idx
    by_cases hlt : idx < lines.length
    · obtain ⟨o, ho⟩ := parseLine_ok cdef (lines.getD idx []) hplain
      have hpb := parseBlock_trivial lines dmap cdef htriv fuel idx o ho
      obtain ⟨cs, hcs, hlen⟩ := ih (idx + 1)
      have harith : idx + 1 + min c (lines.length - (idx + 1)) =
          idx + min (c + 1) (lines.length - idx) := by omega
      refine ⟨o :: cs, ?_, ?_⟩
      · rw [parseChildrenWith_succ, if_pos hlt, hpb, exc_bind_ok]
        simp only [hcs, exc_bind_ok, harith]
      · simp only [List.length_cons, hlen]
        omega
    · refine ⟨[], ?_, ?_⟩
      · have hz : min (c + 1) (lines.length - idx) = 0 := by omega
        rw [parseChildrenWith_succ, if_neg hlt, hz, Nat.add_zero]
      · have hz : min (c + 1) (lines.length - idx) = 0 := by omega
        simp [hz]

/-- Claim C1 (amended): when the parent's single child link resolves to a
known child schema whose blocks consume exactly one line each (no child
definitions and no throwing fields), and the parent's count field parses to
the integer `n ≥ 0`, `parseBlock` attaches exactly
`min n (number of remaining lines)` children under `childrenFieldName` and
stops at end-of-input without error.  (When the child schema itself
consumes count-driven children, a block can span several lines and fewer
than `min n (remaining lines)` children are attached; see the
counterexample.) -/
theorem claim_C1 (lines : List JStr) (dmap : List (JStr × RecordDef))
    (d cdef : RecordDef) (cd : ChildDef) (i n fuel : Nat) (obj : JObj)
    (hcd : d.childDefinitions = some [cd])
    (hname : cd.childrenFieldName.isEmpty = false)
    (hres : lookupKey dmap cd.childRecordType = some cdef)
    (htriv : noChildDefs cdef) (hplain : plainFields cdef)
    (hline : parseLine d (lines.getD i []) = .ok obj)
    (hcount : jsParseIntOr0 (lookupKey obj cd.countField) = Int.ofNat n) :
    ∃ children : List JObj,
      parseBlock lines dmap (fuel + 2) i (some d) =
        .ok (setKey obj cd.childrenFieldName (.arr (children.map JVal.obj)),
             i + 1 + min n (lines.length - (i + 1))) ∧
      children.length = min n (lines.length - (i + 1)) := by
  obtain ⟨cs, hcs, hlen⟩ :=
    parseChildren_trivial lines dmap cdef htriv hplain fuel n (i + 1)
  refine ⟨cs, ?_, hlen⟩
  rw [parseBlock_succ]
  simp only [hline, exc_bind_ok, hcd]
  rw [processChildDefs_cons, hres, hcount]
  rw [show (Int.ofNat n).toNat = n from rfl]
  rw [hcs, exc_bind_ok]
  simp only [hname, Bool.false_eq_true, not_false_iff, if_neg, processChildDefs_nil]

theorem claim_C1_witness :
    ∃ children : List JObj,
      parseBlock ["A2".toList, "C1".toList, "C2".toList]
          (recordDefsMap [c1defA, c1defCplain]) 3 0 (some c1defA) =
        .ok (setKey
              [("n".toList, JVal.str "2".toList),
               ("__recordType".toList, JVal.str "A".toList)]
              (exChild "n" "C" "kids").childrenFieldName (.arr (children.map JVal.obj)),
             0 + 1 + min 2 (3 - (0 + 1))) ∧
      children.length = min 2 (3 - (0 + 1)) :=
  claim_C1 ["A2".toList, "C1".toList, "C2".toList] (recordDefsMap [c1defA, c1defCplain])
    c1defA c1defCplain (exChild "n" "C" "kids") 0 2 1
    [("n".toList, JVal.str "2".toList), ("__recordType".toList, JVal.str "A".toList)]
    rfl rfl rfl (Or.inl rfl) (by unfold plainFields; decide) rfl rfl

/-- Claim C1 counterexample: with the self-referential child schema C (each
C block reads its own count field `m`), the parent line `A2` (count 2) over
the lines `A2 C1 C0` attaches only ONE child — the first C block consumes
both remaining lines — although `min 2 (remaining 2) = 2`, so the claim's
`min(n, remaining lines)` formula is false as stated. -/
theorem claim_C1_cex :
    parseBlock ["A2".toList, "C1".toList, "C0".toList]
        (recordDefsMap [c1defA, c1defC]) 4 0 (some c1defA) =
      .ok ([("n".toList, JVal.str "2".toList),
            ("__recordType".toList, JVal.str "A".toList),
            ("kids".toList, JVal.arr
              [JVal.obj
                [("m".toList, JVal.str "1".toList),
                 ("__recordType".toList, JVal.str "C".toList),
                 ("kids".toList, JVal.arr
                   [JVal.obj
                     [("m".toList, JVal.str "0".toList),
                      ("__recordType".toList, JVal.str "C".toList),
                      ("kids".toList, JVal.arr [])]])]])], 3) ∧
    ([JVal.obj
        [("m".toList, JVal.str "1".toList),
         ("__recordType".toList, JVal.str "C".toList),
         ("kids".toList, JVal.arr
           [JVal.obj
             [("m".toList, JVal.str "0".toList),
              ("__recordType".toList, JVal.str "C".toList),
              ("kids".toList, JVal.arr [])]])]] : List JVal).length = 1 ∧
    jsParseIntOr0 (some (JVal.str "2".toList)) = Int.ofNat 2 ∧
    (1 : Nat) ≠ min 2 (["A2".toList, "C1".toList, "C0".toList].length - (0 + 1)) :=
  ⟨rfl, rfl, rfl, by decide⟩

theorem rootLoop_succ (lines : List JStr) (dmap : List (JStr × RecordDef))
    (defs : List RecordDef) (fuel idx : Nat) :
    rootLoop lines dmap defs (fuel + 1) idx =
      (if idx < lines.length then
        match defs.find? (fun d => reTest d.matcher (lines.getD idx [])) with
        | none => rootLoop lines dmap defs fuel (idx + 1)
        | some d => do
          let (item, nextIdx) ← parseBlock lines dmap (lines.length + 1) idx (some d)
          let rest ← rootLoop lines dmap defs fuel nextIdx
          Except.ok (item :: rest)
      else .ok []) := rfl

theorem pcw_mono (pb : Nat → Option RecordDef → Except JErr (JObj × Nat))
    (len : Nat) (ocd : Option RecordDef)
    (hpb : ∀ i od o j, pb i od = .ok (o, j) → i ≤ j) :
    ∀ (c idx : Nat) (cs : List JObj) (idx' : Nat),
      parseChildrenWith pb len ocd c idx = .ok (cs, idx') → idx ≤ idx' := by
  intro c
  induction c with
  | zero =>
    intro idx cs idx' h
    rw [parseChildrenWith_zero] at h
    simp only [Except.ok.injEq, Prod.mk.injEq] at h
    omega
  | succ c ih =>
    intro idx cs idx' h
    rw [parseChildrenWith_succ] at h
    by_cases hlt : idx < len
    · rw [if_pos hlt] at h
      cases hpb1 : pb idx ocd with
      | error e =>
        simp only [hpb1, exc_bind_err] at h
        exact Except.noConfusion h
      | ok p =>
        obtain ⟨child, nextIdx⟩ := p
        simp only [hpb1, exc_bind_ok] at h
        cases hrec : parseChildrenWith pb len ocd c nextIdx with
        | error e =>
          simp only [hrec, exc_bind_err] at h
          exact Except.noConfusion h
        | ok q =>
          obtain ⟨rest, finalIdx⟩ := q
          simp only [hrec, exc_bind_ok, Except.ok.injEq, Prod.mk.injEq] at h
          have h3 := hpb idx ocd child nextIdx hpb1
          have h4 := ih nextIdx rest finalIdx hrec
          omega
    · rw [if_neg hlt] at h
      simp only [Except.ok.injEq, Prod.mk.injEq] at h
      omega

theorem pcd_mono (pb : Nat → Option RecordDef → Except JErr (JObj × Nat))
    (dmap : List (JStr × RecordDef)) (len : Nat)
    (hpb : ∀ i od o j, pb i od = .ok (o, j) → i ≤ j) :
    ∀ (cds : List ChildDef) (obj : JObj) (idx : Nat) (obj' : JObj) (idx' : Nat),
      processChildDefs pb dmap len cds obj idx = .ok (obj', idx') → idx ≤ idx' := by
  intro cds
  induction cds with
  | nil =>
    intro obj idx obj' idx' h
    rw [processChildDefs_nil] at h
    simp only [Except.ok.injEq, Prod.mk.injEq] at h
    omega
  | cons cd rest ih =>
    intro obj idx obj' idx' h
    rw [processChildDefs_cons] at h
    cases hpc : parseChildrenWith pb len (lookupKey dmap cd.childRecordType)
        (jsParseIntOr0 (lookupKey obj cd.countField)).toNat idx with
    | error e =>
      simp only [hpc, exc_bind_err] at h
      exact Except.noConfusion h
    | ok p =>
      obtain ⟨children, idx1⟩ := p
      simp only [hpc, exc_bind_ok] at h
      have h1 := pcw_mono pb len _ hpb _ idx children idx1 hpc
      have h2 := ih _ idx1 obj' idx' h
      omega

theorem parseBlock_mono (lines : List JStr) (dmap : List (JStr × RecordDef)) :
    ∀ (fuel i : Nat) (od : Option RecordDef) (o : JObj) (j : Nat),
      parseBlock lines dmap fuel i od = .ok (o, j) → i + 1 ≤ j := by
  intro fuel
  induction fuel with
  | zero =>
    intro i od o j h
    exact absurd h (by simp [parseBlock])
  | succ fuel ih =>
    intro i od o j h
    rw [parseBlock_succ] at h
    cases od with
    | none => simp at h
    | some d =>
      cases hpl : parseLine d (lines.getD i []) with
      | error e =>
        simp only [hpl, exc_bind_err] at h
        exact Except.noConfusion h
      | ok obj =>
        simp only [hpl, exc_bind_ok] at h
        cases hcd : d.childDefinitions with
        | none =>
          rw [hcd] at h
          simp only [Except.ok.injEq, Prod.mk.injEq] at h
          omega
        | some cds =>
          rw [hcd] at h
          have hw : ∀ i' od' o' j', parseBlock lines dmap fuel i' od' = .ok (o', j') → i' ≤ j' :=
            fun i' od' o' j' hh => Nat.le_of_succ_le (ih i' od' o' j' hh)
          have := pcd_mono (parseBlock lines dmap fuel) dmap lines.length hw cds obj (i + 1) o j h
          omega

theorem mapME_no_fuel {α β : Type} (g : α → Except JErr β)
    (hg : ∀ x, g x ≠ .error .fuelOut) :
    ∀ xs, mapME g xs ≠ .error .fuelOut := by
  intro xs
  induction xs with
  | nil => simp [mapME]
  | cons x xs ih =>
    rw [mapME]
    cases hx : g x with
    | error e =>
      simp only [hx, exc_bind_err]
      have hne := hg x
      rw [hx] at hne
      exact (exc_error_ne_iff e).mpr ((exc_error_ne_iff e).mp hne)
    | ok y =>
      simp only [hx, exc_bind_ok]
      cases hrec : mapME g xs with
      | error e =>
        simp only [hrec, exc_bind_err]
        rw [hrec] at ih
        exact ih
      | ok ys => simp [hrec, exc_bind_ok]

theorem extractField_no_fuel (delim line : JStr) (f : DField) :
    extractField delim line f ≠ .error .fuelOut := by
  unfold extractField
  by_cases h1 : f.ftype = "delimitedArray".toList
  · rw [if_pos h1]
    cases hc : compileRE (if f.regex.isEmpty then "\\[(.*?)\\]".toList else f.regex) with
    | none => simp [hc, exc_bind_err]
    | some re =>
      simp only [hc, exc_bind_ok]
      have hmap := mapME_no_fuel (fun caps =>
        match capGet caps 1 with
        | some g => Except.ok (jsTrim g)
        | none => Except.error JErr.typeError)
        (by
          intro caps
          cases hcg : capGet caps 1 with
          | some g => simp [hcg]
          | none => simp [hcg])
        (jsMatchAll re line)
      cases hm : mapME (fun caps =>
          match capGet caps 1 with
          | some g => Except.ok (jsTrim g)
          | none => Except.error JErr.typeError) (jsMatchAll re line) with
      | error e =>
        simp only [hm, exc_bind_err]
        rw [hm] at hmap
        exact (exc_error_ne_iff e).mpr ((exc_error_ne_iff e).mp hmap)
      | ok raws => simp [hm, exc_bind_ok]
  · rw [if_neg h1]
    by_cases h2 : f.ftype = "delimited".toList
    · rw [if_pos h2]; simp
    · rw [if_neg h2]; simp

theorem parseLine_no_fuel (d : RecordDef) (line : JStr) :
    parseLine d line ≠ .error .fuelOut := by
  unfold parseLine
  have hfold : ∀ (fields : List DField) (acc : JObj),
      (fields.foldlM (fun o f => do
        let v ← extractField d.delimiter line f
        Except.ok (setKey o f.name v)) acc : Except JErr JObj) ≠ .error .fuelOut := by
    intro fields
    induction fields with
    | nil =>
      intro acc
      intro hcontra
      exact Except.noConfusion hcontra
    | cons f fs ih =>
      intro acc
      rw [List.foldlM_cons]
      cases hx : extractField d.delimiter line f with
      | error e =>
        simp only [hx, exc_bind_err]
        have hne := extractField_no_fuel d.delimiter line f
        rw [hx] at hne
        exact (exc_error_ne_iff e).mpr ((exc_error_ne_iff e).mp hne)
      | ok v =>
        simp only [hx, exc_bind_ok]
        exact ih (setKey acc f.name v)
  cases hf : (d.fields.foldlM (fun o f => do
      let v ← extractField d.delimiter line f
      Except.ok (setKey o f.name v)) [] : Except JErr JObj) with
  | error e =>
    simp only [hf, exc_bind_err]
    have hne := hfold d.fields []
    rw [hf] at hne
    exact (exc_error_ne_iff e).mpr ((exc_error_ne_iff e).mp hne)
  | ok o => simp [hf, exc_bind_ok]

theorem pcw_no_fuel (pb : Nat → Option RecordDef → Except JErr (JObj × Nat))
    (len : Nat) (ocd : Option RecordDef)
    (hpb_mono : ∀ i od o j, pb i od = .ok (o, j) → i ≤ j) :
    ∀ (c idx : Nat), (∀ i' od', idx ≤ i' → i' < len → pb i' od' ≠ .error .fuelOut) →
      parseChildrenWith pb len ocd c idx ≠ .error .fuelOut := by
  intro c
  induction c with
  | zero =>
    intro idx _
    rw [parseChildrenWith_zero]
    simp
  | succ c ih =>
    intro idx hnf
    rw [parseChildrenWith_succ]
    by_cases hlt : idx < len
    · rw [if_pos hlt]
      cases hpb1 : pb idx ocd with
      | error e =>
        simp only [hpb1, exc_bind_err]
        have hne := hnf idx ocd (le_refl idx) hlt
        rw [hpb1] at hne
        exact (exc_error_ne_iff e).mpr ((exc_error_ne_iff e).mp hne)
      | ok p =>
        obtain ⟨child, nextIdx⟩ := p
        simp only [hpb1, exc_bind_ok]
        have hmono := hpb_mono idx ocd child nextIdx hpb1
        cases hrec : parseChildrenWith pb len ocd c nextIdx with
        | error e =>
          simp only [hrec, exc_bind_err]
          have hr := ih nextIdx (fun i' od' hi' hl => hnf i' od' (le_trans hmono hi') hl)
          rw [hrec] at hr
          exact hr
        | ok q =>
          obtain ⟨rest, finalIdx⟩ := q
          simp [hrec, exc_bind_ok]
    · rw [if_neg hlt]
      simp

theorem pcd_no_fuel (pb : Nat → Option RecordDef → Except JErr (JObj × Nat))
    (dmap : List (JStr × RecordDef)) (len : Nat)
    (hpb_mono : ∀ i od o j, pb i od = .ok (o, j) → i ≤ j) :
    ∀ (cds : List ChildDef) (obj : JObj) (idx : Nat),
      (∀ i' od', idx ≤ i' → i' < len → pb i' od' ≠ .error .fuelOut) →
      processChildDefs pb dmap len cds obj idx ≠ .error .fuelOut := by
  intro cds
  induction cds with
  | nil =>
    intro obj idx _
    rw [processChildDefs_nil]
    simp
  | cons cd rest ih =>
    intro obj idx hnf
    rw [processChildDefs_cons]
    cases hpc : parseChildrenWith pb len (lookupKey dmap cd.childRecordType)
        (jsParseIntOr0 (lookupKey obj cd.countField)).toNat idx with
    | error e =>
      simp only [hpc, exc_bind_err]
      have hne := pcw_no_fuel pb len (lookupKey dmap cd.childRecordType) hpb_mono
        (jsParseIntOr0 (lookupKey obj cd.countField)).toNat idx hnf
      rw [hpc] at hne
      exact (exc_error_ne_iff e).mpr ((exc_error_ne_iff e).mp hne)
    | ok p =>
      obtain ⟨children, idx1⟩ := p
      simp only [hpc, exc_bind_ok]
      have h1 := pcw_mono pb len _ hpb_mono _ idx children idx1 hpc
      exact ih _ idx1 (fun i' od' hi' hl => hnf i' od' (le_trans h1 hi') hl)

theorem parseBlock_no_fuel (lines : List JStr) (dmap : List (JStr × RecordDef)) :
    ∀ (fuel i : Nat) (od : Option RecordDef), lines.length - i < fuel → i < lines.length →
      parseBlock lines dmap fuel i od ≠ .error .fuelOut := by
  intro fuel
  induction fuel with
  | zero =>
    intro i od h _
    exact absurd h (Nat.not_lt_zero _)
  | succ fuel ih =>
    intro i od hfu hi
    rw [parseBlock_succ]
    cases od with
    | none => simp
    | some d =>
      cases hpl : parseLine d (lines.getD i []) with
      | error e =>
        simp only [hpl, exc_bind_err]
        have hne := parseLine_no_fuel d (lines.getD i [])
        rw [hpl] at hne
        exact (exc_error_ne_iff e).mpr ((exc_error_ne_iff e).mp hne)
      | ok obj =>
        simp only [hpl, exc_bind_ok]
        cases hcd : d.childDefinitions with
        | none => simp
        | some cds =>
          have hw : ∀ i' od' o' j', parseBlock lines dmap fuel i' od' = .ok (o', j') → i' ≤ j' :=
            fun i' od' o' j' hh =>
              Nat.le_of_succ_le (parseBlock_mono lines dmap fuel i' od' o' j' hh)
          exact pcd_no_fuel (parseBlock lines dmap fuel) dmap lines.length hw cds obj (i + 1)
            (fun i' od' hge hlt => ih i' od' (by omega) hlt)

theorem rootLoop_no_fuel (lines : List JStr) (dmap : List (JStr × RecordDef))
    (defs : List RecordDef) :
    ∀ (fuel idx : Nat), lines.length - idx < fuel →
      rootLoop lines dmap defs fuel idx ≠ .error .fuelOut := by
  intro fuel
  induction fuel with
  | zero =>
    intro idx h
    exact absurd h (Nat.not_lt_zero _)
  | succ fuel ih =>
    intro idx hfu
    rw [rootLoop_succ]
    by_cases hlt : idx < lines.length
    · rw [if_pos hlt]
      cases defs.find? (fun d => reTest d.matcher (lines.getD idx [])) with
      | none => exact ih (idx + 1) (by omega)
      | some d =>
        cases hb : parseBlock lines dmap (lines.length + 1) idx (some d) with
        | error e =>
          simp only [hb, exc_bind_err]
          have hne := parseBlock_no_fuel lines dmap (lines.length + 1) idx (some d)
            (by omega) hlt
          rw [hb] at hne
          exact (exc_error_ne_iff e).mpr ((exc_error_ne_iff e).mp hne)
        | ok p =>
          obtain ⟨item, nextIdx⟩ := p
          simp only [hb, exc_bind_ok]
          have hnext := parseBlock_mono lines dmap (lines.length + 1) idx (some d) item nextIdx hb
          cases hr : rootLoop lines dmap defs fuel nextIdx with
          | error e =>
            simp only [hr, exc_bind_err]
            have hne := ih nextIdx (by omega)
            rw [hr] at hne
            exact hne
          | ok rest => simp [hr, exc_bind_ok]
    · rw [if_neg hlt]
      simp

theorem aggPush_no_fuel (m : List (JStr × List JObj)) (k : JStr) (o : JObj) :
    aggPush m k o ≠ .error .fuelOut := by
  unfold aggPush
  cases lookupKey m k <;> simp

theorem aggregateItems_no_fuel (defs : List RecordDef) (items : List JObj) :
    aggregateItems defs items ≠ .error .fuelOut := by
  unfold aggregateItems
  have hfold : ∀ (its : List JObj) (m0 : List (JStr × List JObj)),
      (its.foldlM (fun m item =>
        aggPush m (itemTag item) (removeKey item "__recordType".toList)) m0 :
        Except JErr (List (JStr × List JObj))) ≠ .error .fuelOut := by
    intro its
    induction its with
    | nil =>
      intro m0
      intro hcontra
      exact Except.noConfusion hcontra
    | cons it its ih =>
      intro m0
      rw [List.foldlM_cons]
      cases hx : aggPush m0 (itemTag it) (removeKey it "__recordType".toList) with
      | error e =>
        simp only [hx, exc_bind_err]
        have hne := aggPush_no_fuel m0 (itemTag it) (removeKey it "__recordType".toList)
        rw [hx] at hne
        exact hne
      | ok m1 =>
        simp only [hx, exc_bind_ok]
        exact ih m1
  exact hfold items (aggregateInit defs)

theorem decodeText_no_fuel (defs : List RecordDef) (text : JStr) (agg : Bool) :
    decodeText defs text agg ≠ .error .fuelOut := by
  unfold decodeText
  cases hd : defs.isEmpty with
  | true => simp
  | false =>
    simp only [Bool.false_eq_true, if_neg, not_false_iff]
    cases hr : rootLoop (linesOf text) (recordDefsMap defs) defs ((linesOf text).length + 1) 0 with
    | error e =>
      have hne := rootLoop_no_fuel (linesOf text) (recordDefsMap defs) defs
        ((linesOf text).length + 1) 0 (by omega)
      rw [hr] at hne
      exact (exc_error_ne_iff e).mpr ((exc_error_ne_iff e).mp hne)
    | ok items =>
      cases agg with
      | false => simp
      | true =>
        cases ha : aggregateItems defs items with
        | error e =>
          simp only [if_pos rfl, ha]
          have hne := aggregateItems_no_fuel defs items
          rw [ha] at hne
          exact (exc_error_ne_iff e).mpr ((exc_error_ne_iff e).mp hne)
        | ok m => simp [ha]

/-- Claim C9: decode terminates on every input.  In the fuel embedding this
is rendered as: (1) a successful `parseBlock` at index `i` always returns a
next index of at least `i + 1` — it consumes at least its own line — so each
root-loop iteration strictly advances the cursor; and (2) with the canonical
fuel (one unit per line plus one), the decode pipeline never exhausts its
fuel, for any text and any schema set, including self-referential child
links. -/
theorem claim_C9 (lines : List JStr) (dmap : List (JStr × RecordDef))
    (defs : List RecordDef) (text : JStr) (agg : Bool) :
    (∀ (fuel i : Nat) (od : Option RecordDef) (o : JObj) (j : Nat),
      parseBlock lines dmap fuel i od = .ok (o, j) → i + 1 ≤ j) ∧
    decodeText defs text agg ≠ .error .fuelOut :=
  ⟨parseBlock_mono lines dmap, decodeText_no_fuel defs text agg⟩

theorem claim_C9_witness :
    (0 + 1 ≤ 1 ∧
      parseBlock ["R7".toList] (recordDefsMap [c4d1]) 2 0 (some c4d1) =
        .ok ([("a".toList, JVal.str "R".toList),
              ("__recordType".toList, JVal.str "R".toList)], 1)) ∧
    decodeText [c4d1] "R7".toList false ≠ .error .fuelOut :=
  ⟨⟨(claim_C9 ["R7".toList] (recordDefsMap [c4d1]) [c4d1] "R7".toList false).1 2 0
      (some c4d1) [("a".toList, JVal.str "R".toList),
                   ("__recordType".toList, JVal.str "R".toList)] 1 rfl, rfl⟩,
    (claim_C9 ["R7".toList] (recordDefsMap [c4d1]) [c4d1] "R7".toList false).2⟩

theorem lookup_setKey_self {α : Type} (m : List (JStr × α)) (k : JStr) (v : α) :
    lookupKey (setKey m k v) k = some v := by
  induction m with
  | nil => simp [setKey, lookupKey]
  | cons e rest ih =>
    obtain ⟨k', v'⟩ := e
    by_cases h : k' = k
    · simp [setKey, h, lookupKey]
    · simp [setKey, h, lookupKey, ih]

theorem lookup_setKey_other {α : Type} (m : List (JStr × α)) (k k' : JStr) (v : α)
    (h : k ≠ k') :
    lookupKey (setKey m k v) k' = lookupKey m k' := by
  induction m with
  | nil => simp [setKey, lookupKey, h]
  | cons e rest ih =>
    obtain ⟨k0, v0⟩ := e
    by_cases h0 : k0 = k
    · subst h0
      simp [setKey, lookupKey, h]
    · simp [setKey, h0, lookupKey, ih]

theorem aggInit_not_mem (defs : List RecordDef) (rt : JStr)
    (h : ∀ d ∈ defs, d.recordType ≠ rt) :
    ∀ m0 : List (JStr × List JObj),
      lookupKey (defs.foldl (fun m d => setKey m d.recordType []) m0) rt = lookupKey m0 rt := by
  induction defs with
  | nil => intro m0; rfl
  | cons e es ih =>
    intro m0
    rw [List.foldl_cons]
    rw [ih (fun d hd => h d (List.mem_cons_of_mem e hd)) (setKey m0 e.recordType [])]
    exact lookup_setKey_other m0 e.recordType rt [] (h e (List.mem_cons_self e es))

theorem aggInit_mem (defs : List RecordDef) (rt : JStr)
    (h : ∃ d ∈ defs, d.recordType = rt) :
    ∀ m0 : List (JStr × List JObj),
      lookupKey (defs.foldl (fun m d => setKey m d.recordType []) m0) rt = some [] := by
  induction defs with
  | nil =>
    obtain ⟨d, hd, _⟩ := h
    exact absurd hd (List.not_mem_nil d)
  | cons e es ih =>
    intro m0
    rw [List.foldl_cons]
    by_cases hes : ∃ d ∈ es, d.recordType = rt
    · exact ih hes (setKey m0 e.recordType [])
    · have he : e.recordType = rt := by
        obtain ⟨d, hd, hrt⟩ := h
        rcases List.mem_cons.mp hd with h1 | h1
        · rw [← h1]; exact hrt
        · exact absurd ⟨d, h1, hrt⟩ hes
      have hall : ∀ d ∈ es, d.recordType ≠ rt := by
        intro d hd hrt
        exact hes ⟨d, hd, hrt⟩
      rw [aggInit_not_mem es rt hall (setKey m0 e.recordType [])]
      rw [he]
      exact lookup_setKey_self m0 rt []

theorem aggFold_lookup :
    ∀ (items : List JObj) (m0 m : List (JStr × List JObj)) (rt : JStr) (xs0 : List JObj),
      (items.foldlM (fun m item =>
        aggPush m (itemTag item) (removeKey item "__recordType".toList)) m0 :
        Except JErr (List (JStr × List JObj))) = .ok m →
      lookupKey m0 rt = some xs0 →
      (∃ xs, lookupKey m rt = some xs) ∧
      ((∀ it ∈ items, itemTag it ≠ rt) → lookupKey m rt = some xs0) := by
  intro items
  induction items with
  | nil =>
    intro m0 m rt xs0 hok h0
    rw [List.foldlM_nil] at hok
    have hm : m0 = m := by
      injection hok
    subst hm
    exact ⟨⟨xs0, h0⟩, fun _ => h0⟩
  | cons it its ih =>
    intro m0 m rt xs0 hok h0
    rw [List.foldlM_cons] at hok
    cases hp : aggPush m0 (itemTag it) (removeKey it "__recordType".toList) with
    | error e =>
      rw [hp, exc_bind_err] at hok
      exact Except.noConfusion hok
    | ok m1 =>
      rw [hp, exc_bind_ok] at hok
      unfold aggPush at hp
      cases hl : lookupKey m0 (itemTag it) with
      | none =>
        rw [hl] at hp
        exact Except.noConfusion hp
      | some cur =>
        rw [hl] at hp
        have hm1 : m1 = setKey m0 (itemTag it)
            (cur ++ [removeKey it "__recordType".toList]) := by
          injection hp with h1
          exact h1.symm
        subst hm1
        by_cases hk : itemTag it = rt
        · subst hk
          have hlook : lookupKey (setKey m0 (itemTag it)
              (cur ++ [removeKey it "__recordType".toList])) (itemTag it) =
              some (cur ++ [removeKey it "__recordType".toList]) :=
            lookup_setKey_self m0 (itemTag it) _
          obtain ⟨hex, _⟩ := ih _ m (itemTag it) _ hok hlook
          refine ⟨hex, fun hall => ?_⟩
          exact absurd rfl (hall it (List.mem_cons_self it its))
        · have hlook : lookupKey (setKey m0 (itemTag it)
              (cur ++ [removeKey it "__recordType".toList])) rt = some xs0 := by
            rw [lookup_setKey_other m0 (itemTag it) rt _ hk]
            exact h0
          obtain ⟨hex, himp⟩ := ih _ m rt xs0 hok hlook
          exact ⟨hex, fun hall => himp (fun it' hit' => hall it' (List.mem_cons_of_mem it hit'))⟩

/-- Claim C10: in aggregate mode the output object holds a key for every
declared record type, pre-seeded with an empty array before grouping: a
record type that matches no decoded item still appears, bound to the empty
array. -/
theorem claim_C10 (defs : List RecordDef) (items : List JObj) (d : RecordDef)
    (m : List (JStr × List JObj)) (hmem : d ∈ defs)
    (hok : aggregateItems defs items = .ok m) :
    (∃ xs, lookupKey m d.recordType = some xs) ∧
    ((∀ it ∈ items, itemTag it ≠ d.recordType) → lookupKey m d.recordType = some []) := by
  have hinit : lookupKey (aggregateInit defs) d.recordType = some [] :=
    aggInit_mem defs d.recordType ⟨d, hmem, rfl⟩ []
  unfold aggregateItems at hok
  exact aggFold_lookup items (aggregateInit defs) m d.recordType [] hok hinit

theorem claim_C10_witness :
    (∃ xs, lookupKey [("R".toList, ([] : List JObj))] c4d1.recordType = some xs) ∧
    ((∀ it ∈ ([] : List JObj), itemTag it ≠ c4d1.recordType) →
      lookupKey [("R".toList, ([] : List JObj))] c4d1.recordType = some []) :=
  claim_C10 [c4d1] [] c4d1 [("R".toList, [])] (List.mem_singleton.mpr rfl) rfl

theorem foldl_append_mapME {α : Type} (g : α → Except JErr (List JStr)) (xs : List α) :
    ∀ acc, (xs.foldlM (fun a x => do
      let ls ← g x
      Except.ok (a ++ ls)) acc : Except JErr (List JStr)) =
      (mapME g xs).map (fun lss => acc ++ catAll lss) := by
  induction xs with
  | nil =>
    intro acc
    show (pure acc : Except JErr (List JStr)) = _
    simp [mapME, catAll, Except.map]
    rfl
  | cons x xs ih =>
    intro acc
    rw [List.foldlM_cons, mapME]
    cases hx : g x with
    | error e => simp [hx, exc_bind_err, Except.map]
    | ok ls =>
      simp only [hx, exc_bind_ok]
      rw [ih (acc ++ ls)]
      cases hm : mapME g xs with
      | error e => simp [hm, exc_bind_err, Except.map]
      | ok lss =>
        simp [hm, exc_bind_ok, Except.map, catAll, List.append_assoc]

/-- Claim C8 (corrected): in the encode root loop, resolving a definition's
`jsonPath` in the input value yields: an array — every element is formatted
in array order; a single (non-null) object — formatted once; a missing
path, `null`, string, number, NaN or boolean — no lines and no error.  A
`date` value, however, is NOT treated as a scalar: `typeof Date` is
`'object'` in JavaScript, so it is formatted once exactly like an object
(the original claim's "every other case contributes no lines" clause is
refuted at a date-valued path by `claim_C8_cex`). -/
theorem claim_C8 (defs : List ERecordDef) (fuel : Nat) (d : ERecordDef) (root : JVal) :
    (getByPath root d.jsonPath = none → encodeRootLines defs fuel d root = .ok []) ∧
    (getByPath root d.jsonPath = some .null → encodeRootLines defs fuel d root = .ok []) ∧
    (∀ s, getByPath root d.jsonPath = some (.str s) →
      encodeRootLines defs fuel d root = .ok []) ∧
    (∀ n, getByPath root d.jsonPath = some (.num n) →
      encodeRootLines defs fuel d root = .ok []) ∧
    (getByPath root d.jsonPath = some .nanv → encodeRootLines defs fuel d root = .ok []) ∧
    (∀ b, getByPath root d.jsonPath = some (.bool b) →
      encodeRootLines defs fuel d root = .ok []) ∧
    (∀ xs, getByPath root d.jsonPath = some (.arr xs) →
      encodeRootLines defs fuel d root = (mapME (formatRecord defs fuel d) xs).map catAll) ∧
    (∀ o, getByPath root d.jsonPath = some (.obj o) →
      encodeRootLines defs fuel d root = formatRecord defs fuel d (.obj o)) ∧
    (∀ r, getByPath root d.jsonPath = some (.date r) →
      encodeRootLines defs fuel d root = formatRecord defs fuel d (.date r)) := by
  refine ⟨?_, ?_, ?_, ?_, ?_, ?_, ?_, ?_, ?_⟩
  · intro h; unfold encodeRootLines; rw [h]
  · intro h; unfold encodeRootLines; rw [h]
  · intro s h; unfold encodeRootLines; rw [h]
  · intro n h; unfold encodeRootLines; rw [h]
  · intro h; unfold encodeRootLines; rw [h]
  · intro b h; unfold encodeRootLines; rw [h]
  · intro xs h
    unfold encodeRootLines
    rw [h]
    exact foldl_append_mapME (formatRecord defs fuel d) xs []
  · intro o h
    unfold encodeRootLines
    rw [h]
  · intro r h
    unfold encodeRootLines
    rw [h]

theorem claim_C8_witness :
    encodeRootLines [c8def] 1 c8def (JVal.obj [("p".toList, JVal.null)]) = .ok [] :=
  (claim_C8 [c8def] 1 c8def (JVal.obj [("p".toList, JVal.null)])).2.1 rfl

/-- Claim C8, counterexample to the original claim's "in every other case
(scalars — per the specification's value taxonomy including dates — null,
or a missing value) the definition contributes no lines": a `date` value
resolved at the `jsonPath` is `typeof === 'object' && !== null` in
JavaScript, so the root loop formats it once — the `c8def` schema emits one
space-padded line, not zero lines. -/
theorem claim_C8_cex :
    encodeRootLines [c8def] 1 c8def
        (JVal.obj [("p".toList, JVal.date "2020".toList)]) = .ok ["  ".toList] ∧
    (["  ".toList] : List JStr) ≠ [] := ⟨rfl, by decide⟩

theorem splitNL_cons_nl (rest : JStr) : splitNL ('\n' :: rest) = [] :: splitNL rest := by
  rw [splitNL.eq_def]
  simp

theorem splitNL_cons_other (c : Char) (rest : JStr) (h1 : c ≠ '\n') (h2 : c ≠ '\r') :
    splitNL (c :: rest) = consHead c (splitNL rest) := by
  rw [splitNL.eq_def]
  simp only [if_neg h1, if_neg h2]

theorem jsJoin_cons2 (sep x y : JStr) (ys : List JStr) :
    jsJoin sep (x :: y :: ys) = x ++ sep ++ jsJoin sep (y :: ys) := by
  rw [jsJoin]
  exact List.cons_ne_nil y ys

theorem splitNL_single (l : JStr) (h : ∀ c ∈ l, c ≠ '\n' ∧ c ≠ '\r') :
    splitNL l = [l] := by
  induction l with
  | nil => rfl
  | cons c r ih =>
    have hc := h c (List.mem_cons_self c r)
    rw [splitNL_cons_other c r hc.1 hc.2]
    rw [ih (fun d hd => h d (List.mem_cons_of_mem c hd))]
    rfl

theorem splitNL_append (l rest : JStr) (h : ∀ c ∈ l, c ≠ '\n' ∧ c ≠ '\r') :
    splitNL (l ++ '\n' :: rest) = l :: splitNL rest := by
  induction l with
  | nil =>
    rw [List.nil_append, splitNL_cons_nl]
  | cons c cs ih =>
    have hc := h c (List.mem_cons_self c cs)
    rw [List.cons_append, splitNL_cons_other c _ hc.1 hc.2]
    rw [ih (fun d hd => h d (List.mem_cons_of_mem c hd))]
    rfl

theorem splitNL_join (ls : List JStr) (h : ∀ l ∈ ls, ∀ c ∈ l, c ≠ '\n' ∧ c ≠ '\r')
    (hne : ls ≠ []) :
    splitNL (jsJoin ['\n'] ls) = ls := by
  induction ls with
  | nil => exact absurd rfl hne
  | cons l rest ih =>
    cases rest with
    | nil =>
      rw [show jsJoin ['\n'] [l] = l from rfl]
      exact splitNL_single l (h l (List.mem_cons_self l []))
    | cons l2 rest2 =>
      have hjoin : jsJoin ['\n'] (l :: l2 :: rest2) =
          l ++ '\n' :: jsJoin ['\n'] (l2 :: rest2) := by
        rw [jsJoin_cons2, List.append_assoc]
        rfl
      rw [hjoin, splitNL_append l _ (h l (List.mem_cons_self l (l2 :: rest2)))]
      rw [ih (fun l' hl' => h l' (List.mem_cons_of_mem l hl')) (List.cons_ne_nil l2 rest2)]

theorem stripBOM_id (l : JStr) (h : ∀ c ∈ l, c ≠ Char.ofNat 0xFEFF) :
    stripBOM l = l := by
  cases l with
  | nil => rfl
  | cons c r =>
    rw [stripBOM, if_neg (h c (List.mem_cons_self c r))]

theorem linesOf_join (ls : List JStr)
    (hnl : ∀ l ∈ ls, ∀ c ∈ l, c ≠ '\n' ∧ c ≠ '\r' ∧ c ≠ Char.ofNat 0xFEFF)
    (htrim : ∀ l ∈ ls, (jsTrim l).isEmpty = false) :
    linesOf (jsJoin ['\n'] ls) = ls := by
  unfold linesOf
  cases hls : ls with
  | nil =>
    rw [show jsJoin ['\n'] [] = [] from rfl]
    rfl
  | cons l rest =>
    rw [← hls]
    have hbom : stripBOM (jsJoin ['\n'] ls) = jsJoin ['\n'] ls := by
      apply stripBOM_id
      intro c hc
      have hmem : ∃ l' ∈ ls, c ∈ l' ∨ c = '\n' := by
        clear hnl htrim hls
        induction ls with
        | nil => simp [jsJoin] at hc
        | cons x xs ih =>
          cases xs with
          | nil =>
            exact ⟨x, List.mem_cons_self x [], Or.inl hc⟩
          | cons y ys =>
            rw [show jsJoin ['\n'] (x :: y :: ys) =
                x ++ '\n' :: jsJoin ['\n'] (y :: ys) from by
              rw [jsJoin_cons2, List.append_assoc]
              rfl] at hc
            rcases List.mem_append.mp hc with h1 | h1
            · exact ⟨x, List.mem_cons_self x (y :: ys), Or.inl h1⟩
            · rcases List.mem_cons.mp h1 with h2 | h2
              · exact ⟨x, List.mem_cons_self x (y :: ys), Or.inr h2⟩
              · obtain ⟨l', hl', hc'⟩ := ih h2
                exact ⟨l', List.mem_cons_of_mem x hl', hc'⟩
      obtain ⟨l', hl', hc'⟩ := hmem
      rcases hc' with hc' | hc'
      · exact ((hnl l' hl' c hc').2.2)
      · rw [hc']
        decide
    rw [hbom]
    rw [splitNL_join ls (fun l' hl' c hc => ⟨(hnl l' hl' c hc).1, (hnl l' hl' c hc).2.1⟩)
      (by rw [hls]; simp)]
    rw [List.filter_eq_self.mpr]
    intro a ha
    rw [htrim a ha]
    rfl

theorem rootLoop_succ_none (lines : List JStr) (dmap : List (JStr × RecordDef))
    (defs : List RecordDef) (fuel idx : Nat) (hlt : idx < lines.length)
    (hf : List.find? (fun d => reTest d.matcher (lines.getD idx [])) defs = none) :
    rootLoop lines dmap defs (fuel + 1) idx = rootLoop lines dmap defs fuel (idx + 1) := by
  simp only [rootLoop_succ, if_pos hlt, hf]

theorem rootLoop_succ_some (lines : List JStr) (dmap : List (JStr × RecordDef))
    (defs : List RecordDef) (fuel idx : Nat) (d : RecordDef) (hlt : idx < lines.length)
    (hf : List.find? (fun d => reTest d.matcher (lines.getD idx [])) defs = some d) :
    rootLoop lines dmap defs (fuel + 1) idx = (do
      let (item, nextIdx) ← parseBlock lines dmap (lines.length + 1) idx (some d)
      let rest ← rootLoop lines dmap defs fuel nextIdx
      Except.ok (item :: rest)) := by
  simp only [rootLoop_succ, if_pos hlt, hf]

theorem flatParse_cons_none (defs : List RecordDef) (l : JStr) (rest : List JStr)
    (hf : List.find? (fun d => reTest d.matcher l) defs = none) :
    flatParse defs (l :: rest) = flatParse defs rest := by
  simp only [flatParse, hf]

theorem flatParse_cons_some (defs : List RecordDef) (l : JStr) (rest : List JStr)
    (d : RecordDef) (hf : List.find? (fun d => reTest d.matcher l) defs = some d) :
    flatParse defs (l :: rest) = (do
      let obj ← parseLine d l
      let objs ← flatParse defs rest
      Except.ok (obj :: objs)) := by
  simp only [flatParse, hf]

theorem parseBlock_succ_some (lines : List JStr) (dmap : List (JStr × RecordDef))
    (fuel startIdx : Nat) (d : RecordDef) :
    parseBlock lines dmap (fuel + 1) startIdx (some d) = (do
      let parentJson ← parseLine d (lines.getD startIdx [])
      match d.childDefinitions with
      | none => Except.ok (parentJson, startIdx + 1)
      | some cds =>
        processChildDefs (parseBlock lines dmap fuel) dmap lines.length cds
          parentJson (startIdx + 1)) := by
  simp only [parseBlock_succ]

theorem parseBlock_trivial_any (lines : List JStr) (dmap : List (JStr × RecordDef))
    (cdef : RecordDef) (htriv : noChildDefs cdef) (fuel idx : Nat) :
    parseBlock lines dmap (fuel + 1) idx (some cdef) =
      (parseLine cdef (lines.getD idx [])).map (fun o => (o, idx + 1)) := by
  rw [parseBlock_succ_some]
  cases hpl : parseLine cdef (lines.getD idx []) with
  | error e => rfl
  | ok o =>
    rcases htriv with h | h
    · simp only [h]
      rfl
    · simp only [h]
      rfl

theorem rootLoop_flat (lines : List JStr) (dmap : List (JStr × RecordDef))
    (defs : List RecordDef) (htriv : ∀ d ∈ defs, noChildDefs d) :
    ∀ (fuel idx : Nat), lines.length - idx < fuel →
      rootLoop lines dmap defs fuel idx = flatParse defs (lines.drop idx) := by
  intro fuel
  induction fuel with
  | zero =>
    intro idx h
    exact absurd h (Nat.not_lt_zero _)
  | succ fuel ih =>
    intro idx hfu
    by_cases hlt : idx < lines.length
    · have hdrop : lines.drop idx = lines.getD idx [] :: lines.drop (idx + 1) := by
        rw [List.drop_eq_getElem_cons hlt, List.getD_eq_getElem lines [] hlt]
      rw [hdrop]
      cases hf : List.find? (fun d => reTest d.matcher (lines.getD idx [])) defs with
      | none =>
        rw [rootLoop_succ_none lines dmap defs fuel idx hlt hf,
          flatParse_cons_none defs _ _ hf, ih (idx + 1) (by omega)]
      | some d =>
        have htd := htriv d (List.mem_of_find?_eq_some hf)
        rw [rootLoop_succ_some lines dmap defs fuel idx d hlt hf,
          flatParse_cons_some defs _ _ d hf,
          parseBlock_trivial_any lines dmap d htd lines.length idx]
        cases hpl : parseLine d (lines.getD idx []) with
        | error e => rfl
        | ok obj =>
          simp only [Except.map, exc_bind_ok]
          rw [ih (idx + 1) (by omega)]
    · rw [rootLoop_succ, if_neg hlt, List.drop_eq_nil_of_le (by omega)]
      rfl

theorem c7_flat_B : ∀ M, flatParse [c7defA, c7defB] (List.replicate M "B2".toList) =
    .ok (List.replicate M c7itemB) := by
  intro M
  induction M with
  | zero => rfl
  | succ k ih =>
    rw [List.replicate_succ,
      flatParse_cons_some [c7defA, c7defB] "B2".toList _ c7defB rfl,
      show parseLine c7defB "B2".toList = Except.ok c7itemB from rfl, exc_bind_ok, ih,
      exc_bind_ok, List.replicate_succ]

theorem c7_flat : ∀ N M, flatParse [c7defA, c7defB]
    (List.replicate N "A1".toList ++ List.replicate M "B2".toList) =
    .ok (List.replicate N c7itemA ++ List.replicate M c7itemB) := by
  intro N M
  induction N with
  | zero =>
    rw [List.replicate_zero, List.nil_append]
    exact c7_flat_B M
  | succ k ih =>
    rw [List.replicate_succ, List.cons_append,
      flatParse_cons_some [c7defA, c7defB] "A1".toList _ c7defA rfl,
      show parseLine c7defA "A1".toList = Except.ok c7itemA from rfl, exc_bind_ok, ih,
      exc_bind_ok, List.replicate_succ, List.cons_append]

theorem c7_pushA (as bs : List JObj) :
    aggPush [("A".toList, as), ("B".toList, bs)] (itemTag c7itemA)
      (removeKey c7itemA "__recordType".toList) =
    .ok [("A".toList, as ++ [c7objA]), ("B".toList, bs)] := rfl

theorem c7_pushB (as bs : List JObj) :
    aggPush [("A".toList, as), ("B".toList, bs)] (itemTag c7itemB)
      (removeKey c7itemB "__recordType".toList) =
    .ok [("A".toList, as), ("B".toList, bs ++ [c7objB])] := rfl

theorem c7_aggfold_B : ∀ (M : Nat) (as bs : List JObj),
    ((List.replicate M c7itemB).foldlM (fun m item =>
      aggPush m (itemTag item) (removeKey item "__recordType".toList))
      [("A".toList, as), ("B".toList, bs)] :
      Except JErr (List (JStr × List JObj))) =
    .ok [("A".toList, as), ("B".toList, bs ++ List.replicate M c7objB)] := by
  intro M
  induction M with
  | zero =>
    intro as bs
    simp only [List.replicate_zero, List.foldlM_nil, List.append_nil]
    rfl
  | succ k ih =>
    intro as bs
    rw [List.replicate_succ, List.foldlM_cons, c7_pushB, exc_bind_ok, ih as (bs ++ [c7objB])]
    rw [List.append_assoc, List.singleton_append, ← List.replicate_succ]

theorem c7_aggfold : ∀ (N M : Nat) (as bs : List JObj),
    ((List.replicate N c7itemA ++ List.replicate M c7itemB).foldlM (fun m item =>
      aggPush m (itemTag item) (removeKey item "__recordType".toList))
      [("A".toList, as), ("B".toList, bs)] :
      Except JErr (List (JStr × List JObj))) =
    .ok [("A".toList, as ++ List.replicate N c7objA),
         ("B".toList, bs ++ List.replicate M c7objB)] := by
  intro N
  induction N with
  | zero =>
    intro M as bs
    simp only [List.replicate_zero, List.nil_append, List.append_nil]
    exact c7_aggfold_B M as bs
  | succ k ih =>
    intro M as bs
    rw [List.replicate_succ, List.cons_append, List.foldlM_cons, c7_pushA, exc_bind_ok,
      ih M (as ++ [c7objA]) bs]
    rw [List.append_assoc, List.singleton_append, ← List.replicate_succ]

theorem c7_charsA : ∀ c ∈ ("A1".toList : List Char),
    c ≠ '\n' ∧ c ≠ '\r' ∧ c ≠ Char.ofNat 0xFEFF := by decide

theorem c7_charsB : ∀ c ∈ ("B2".toList : List Char),
    c ≠ '\n' ∧ c ≠ '\r' ∧ c ≠ Char.ofNat 0xFEFF := by decide

theorem c7_triv : ∀ d ∈ [c7defA, c7defB], noChildDefs d := by
  intro d hd
  rcases List.mem_cons.mp hd with h | h
  · rw [h]
    exact Or.inl rfl
  · rcases List.mem_cons.mp h with h2 | h2
    · rw [h2]
      exact Or.inl rfl
    · exact absurd h2 (List.not_mem_nil d)

theorem decodeText_c7_shape (text : JStr) :
    decodeText [c7defA, c7defB] text true =
    (match rootLoop (linesOf text) (recordDefsMap [c7defA, c7defB]) [c7defA, c7defB]
        ((linesOf text).length + 1) 0 with
     | .error e => .error e
     | .ok items =>
       match aggregateItems [c7defA, c7defB] items with
       | .error e => .error e
       | .ok m => .ok [aggToJVal m]) := rfl

theorem c7_lines (N M : Nat) :
    linesOf (jsJoin ['\n'] (List.replicate N "A1".toList ++ List.replicate M "B2".toList)) =
      List.replicate N "A1".toList ++ List.replicate M "B2".toList := by
  apply linesOf_join
  · intro l hl c hc
    rcases List.mem_append.mp hl with h | h
    · exact c7_charsA c (by rwa [List.eq_of_mem_replicate h] at hc)
    · exact c7_charsB c (by rwa [List.eq_of_mem_replicate h] at hc)
  · intro l hl
    rcases List.mem_append.mp hl with h | h
    · rw [List.eq_of_mem_replicate h]
      decide
    · rw [List.eq_of_mem_replicate h]
      decide

theorem c7_agg (N M : Nat) :
    aggregateItems [c7defA, c7defB]
        (List.replicate N c7itemA ++ List.replicate M c7itemB) =
      Except.ok [("A".toList, List.replicate N c7objA),
                 ("B".toList, List.replicate M c7objB)] := by
  unfold aggregateItems
  rw [show aggregateInit [c7defA, c7defB] =
    [("A".toList, ([] : List JObj)), ("B".toList, ([] : List JObj))] from rfl]
  rw [c7_aggfold N M [] []]
  simp only [List.nil_append]

/-- Claim C7 (corrected): in aggregate mode, decoding N lines of record type A
and M lines of record type B yields the single output object
`\x7bA: [N items], B: [M items]\x7d` grouped by record type, and the
`__recordType` tag is stripped from every top-level item.  (The original
claim's stronger clause — that no `__recordType` tag appears anywhere,
including inside nested children arrays — is refuted by `claim_C7_cex`.) -/
theorem claim_C7 (N M : Nat) :
    decodeText [c7defA, c7defB]
      (jsJoin ['\n'] (List.replicate N "A1".toList ++ List.replicate M "B2".toList)) true =
    .ok [JVal.obj [("A".toList, JVal.arr (List.replicate N (JVal.obj c7objA))),
                   ("B".toList, JVal.arr (List.replicate M (JVal.obj c7objB)))]] := by
  rw [decodeText_c7_shape, c7_lines N M]
  rw [rootLoop_flat _ (recordDefsMap [c7defA, c7defB]) _ c7_triv
    ((List.replicate N "A1".toList ++ List.replicate M "B2".toList).length + 1) 0 (by omega)]
  rw [List.drop_zero, c7_flat N M]
  show (match aggregateItems [c7defA, c7defB]
      (List.replicate N c7itemA ++ List.replicate M c7itemB) with
    | Except.error e => (Except.error e : Except JErr (List JVal))
    | Except.ok m => Except.ok [aggToJVal m]) = _
  rw [c7_agg N M]
  show Except.ok [aggToJVal [("A".toList, List.replicate N c7objA),
    ("B".toList, List.replicate M c7objB)]] = _
  rw [show aggToJVal [("A".toList, List.replicate N c7objA),
      ("B".toList, List.replicate M c7objB)] =
    JVal.obj [("A".toList, JVal.arr ((List.replicate N c7objA).map JVal.obj)),
      ("B".toList, JVal.arr ((List.replicate M c7objB).map JVal.obj))] from rfl]
  rw [List.map_replicate, List.map_replicate]

theorem claim_C7_witness :
    decodeText [c7defA, c7defB]
      (jsJoin ['\n'] (List.replicate 2 "A1".toList ++ List.replicate 1 "B2".toList)) true =
    .ok [JVal.obj [("A".toList, JVal.arr (List.replicate 2 (JVal.obj c7objA))),
                   ("B".toList, JVal.arr (List.replicate 1 (JVal.obj c7objB)))]] :=
  claim_C7 2 1

/-- Claim C7, counterexample to the original "no `__recordType` tag appears
anywhere in the emitted values (including inside nested children arrays)"
clause: with a parent type A linking to child type C, aggregate-mode decode
of `A1\nC0` emits the nested child object still carrying
`__recordType: 'C'` — only top-level items are destructured. -/
theorem claim_C7_cex :
    decodeText [c1defA, c1defC] "A1\nC0".toList true =
      .ok [JVal.obj [("A".toList, JVal.arr [JVal.obj [("n".toList, JVal.str "1".toList),
            ("kids".toList, JVal.arr [JVal.obj [("m".toList, JVal.str "0".toList),
              ("__recordType".toList, JVal.str "C".toList),
              ("kids".toList, JVal.arr [])]])]]),
          ("C".toList, JVal.arr [])]] ∧
    lookupKey [("m".toList, JVal.str "0".toList),
        ("__recordType".toList, JVal.str "C".toList),
        ("kids".toList, JVal.arr [])] "__recordType".toList =
      some (JVal.str "C".toList) := ⟨rfl, rfl⟩

theorem mkLine_nil (vs : List JStr) : mkLine [] vs = [] := rfl

theorem mkLine_cons (n : JStr) (w : Nat) (fs : List (JStr × Nat)) (v : JStr)
    (vs : List JStr) : mkLine ((n, w) :: fs) (v :: vs) = padSeg w v ++ mkLine fs vs := rfl

theorem objOf_nil (vs : List JStr) : objOf [] vs = [] := rfl

theorem objOf_cons (n : JStr) (w : Nat) (fs : List (JStr × Nat)) (v : JStr)
    (vs : List JStr) : objOf ((n, w) :: fs) (v :: vs) = (n, JVal.str v) :: objOf fs vs := rfl

theorem padSeg_length (w : Nat) (v : JStr) (h : v.length ≤ w) : (padSeg w v).length = w := by
  unfold padSeg
  rw [List.length_append, List.length_replicate]
  omega

theorem repeatJ_single (c : Char) : ∀ n, repeatJ [c] n = List.replicate n c := by
  intro n
  induction n with
  | zero => rfl
  | succ k ih =>
    rw [repeatJ, ih, List.replicate_succ]
    rfl

theorem dropWhile_spaces (y : JStr) (n : Nat) :
    (List.replicate n ' ' ++ y).dropWhile jsWS = y.dropWhile jsWS := by
  induction n with
  | zero => rfl
  | succ k ih =>
    rw [List.replicate_succ, List.cons_append]
    rw [show (' ' :: (List.replicate k ' ' ++ y)).dropWhile jsWS =
      (List.replicate k ' ' ++ y).dropWhile jsWS from rfl]
    exact ih

theorem dropTrailWS_pad (x : JStr) (n : Nat) :
    dropTrailWS (x ++ List.replicate n ' ') = dropTrailWS x := by
  unfold dropTrailWS
  rw [List.reverse_append, List.reverse_replicate, dropWhile_spaces]

theorem dropWhile_len_le (p : Char → Bool) (l : JStr) :
    (l.dropWhile p).length ≤ l.length := by
  induction l with
  | nil => exact Nat.le_refl 0
  | cons c r ih =>
    rw [List.dropWhile_cons]
    by_cases h : p c = true
    · rw [if_pos h]
      rw [List.length_cons]
      omega
    · rw [if_neg h]

theorem length_dropTrailWS_le (x : JStr) : (dropTrailWS x).length ≤ x.length := by
  unfold dropTrailWS
  rw [List.length_reverse]
  calc (x.reverse.dropWhile jsWS).length ≤ x.reverse.length := dropWhile_len_le _ _
    _ = x.length := List.length_reverse x

theorem jsTrim_head_not_ws (c : Char) (v : JStr) (hv : jsTrim (c :: v) = c :: v) :
    jsWS c = false := by
  cases hb : jsWS c with
  | false => rfl
  | true =>
    exfalso
    have h1 : (jsTrim (c :: v)).length ≤ v.length := by
      unfold jsTrim
      rw [List.dropWhile_cons, if_pos hb]
      calc (dropTrailWS (v.dropWhile jsWS)).length ≤ (v.dropWhile jsWS).length :=
            length_dropTrailWS_le _
        _ ≤ v.length := dropWhile_len_le _ _
    rw [hv, List.length_cons] at h1
    omega

theorem jsTrim_pad (v : JStr) (n : Nat) (hv : jsTrim v = v) :
    jsTrim (v ++ List.replicate n ' ') = v := by
  cases v with
  | nil =>
    rw [List.nil_append]
    unfold jsTrim
    rw [show (List.replicate n ' ').dropWhile jsWS = ([] : JStr).dropWhile jsWS from by
      rw [← List.append_nil (List.replicate n ' ')]
      exact dropWhile_spaces [] n]
    rfl
  | cons c v' =>
    have hc := jsTrim_head_not_ws c v' hv
    unfold jsTrim
    rw [List.cons_append, List.dropWhile_cons, if_neg (by rw [hc]; exact Bool.false_ne_true)]
    rw [show c :: (v' ++ List.replicate n ' ') = (c :: v') ++ List.replicate n ' ' from rfl]
    rw [dropTrailWS_pad]
    have hcv : jsTrim (c :: v') = dropTrailWS (c :: v') := by
      unfold jsTrim
      rw [List.dropWhile_cons, if_neg (by rw [hc]; exact Bool.false_ne_true)]
    rw [← hcv, hv]

theorem extractField_fixed (line : JStr) (n : JStr) (pos w : Nat) :
    extractField [] line (tileF n pos w) =
    Except.ok (.str (jsTrim (substrJS line pos w))) := rfl

theorem setKey_absent {α : Type} (m : List (JStr × α)) (k : JStr) (v : α)
    (h : lookupKey m k = none) : setKey m k v = m ++ [(k, v)] := by
  induction m with
  | nil => rfl
  | cons e rest ih =>
    obtain ⟨k', v'⟩ := e
    by_cases hk : k' = k
    · rw [lookupKey, if_pos hk] at h
      exact absurd h (Option.some_ne_none v')
    · rw [lookupKey, if_neg hk] at h
      rw [setKey, if_neg hk, ih h, List.cons_append]

theorem lookupKey_append_left {α : Type} (m1 m2 : List (JStr × α)) (k : JStr)
    (h : lookupKey m1 k = none) : lookupKey (m1 ++ m2) k = lookupKey m2 k := by
  induction m1 with
  | nil => rfl
  | cons e rest ih =>
    obtain ⟨k', v'⟩ := e
    by_cases hk : k' = k
    · rw [lookupKey, if_pos hk] at h
      exact absurd h (Option.some_ne_none v')
    · rw [lookupKey, if_neg hk] at h
      rw [List.cons_append, lookupKey, if_neg hk]
      exact ih h

theorem lookupKey_append_some {α : Type} (m1 m2 : List (JStr × α)) (k : JStr) (v : α)
    (h : lookupKey m1 k = some v) : lookupKey (m1 ++ m2) k = some v := by
  induction m1 with
  | nil => exact Option.noConfusion h
  | cons e rest ih =>
    obtain ⟨k', v'⟩ := e
    by_cases hk : k' = k
    · rw [lookupKey, if_pos hk] at h
      rw [List.cons_append, lookupKey, if_pos hk]
      exact h
    · rw [lookupKey, if_neg hk] at h
      rw [List.cons_append, lookupKey, if_neg hk]
      exact ih h

theorem lookupKey_objOf_none (fs : List (JStr × Nat)) (vs : List JStr) (k : JStr)
    (hk : k ∉ fs.map (fun p => p.1)) : lookupKey (objOf fs vs) k = none := by
  induction fs generalizing vs with
  | nil => rw [objOf_nil]; rfl
  | cons p fs' ih =>
    obtain ⟨n, w⟩ := p
    cases vs with
    | nil => rfl
    | cons v vs' =>
      rw [objOf_cons, lookupKey, if_neg (by
        intro he
        exact hk (by rw [List.map_cons, ← he]; exact List.mem_cons_self _ _))]
      exact ih vs' (fun hmem => hk (by rw [List.map_cons]; exact List.mem_cons_of_mem _ hmem))

theorem lookupKey_objOf_zip (fs : List (JStr × Nat)) (vs : List JStr)
    (hnd : (fs.map (fun p => p.1)).Nodup) :
    ∀ p ∈ List.zip fs vs, lookupKey (objOf fs vs) p.1.1 = some (JVal.str p.2) := by
  induction fs generalizing vs with
  | nil =>
    intro p hp
    rw [List.zip_nil_left] at hp
    exact absurd hp (List.not_mem_nil p)
  | cons q fs' ih =>
    obtain ⟨n, w⟩ := q
    intro p hp
    cases vs with
    | nil =>
      rw [List.zip_nil_right] at hp
      exact absurd hp (List.not_mem_nil p)
    | cons v vs' =>
      rw [List.zip_cons_cons] at hp
      rw [List.map_cons] at hnd
      rcases List.mem_cons.mp hp with h | h
      · rw [h, objOf_cons, lookupKey, if_pos rfl]
      · have hne : n ≠ p.1.1 := by
          intro he
          have hp1 : p.1 ∈ fs' := (List.of_mem_zip h).1
          exact (List.nodup_cons.mp hnd).1
            (he ▸ List.mem_map_of_mem (fun r => r.1) hp1)
        rw [objOf_cons, lookupKey, if_neg hne]
        exact ih vs' (List.nodup_cons.mp hnd).2 p h

theorem parse_fold (L : JStr) :
    ∀ (fs : List (JStr × Nat)) (vs : List JStr) (pre : JStr) (acc : JObj),
      fs.length = vs.length →
      (∀ p ∈ List.zip fs vs, jsTrim p.2 = p.2 ∧ p.2.length ≤ p.1.2) →
      (∀ p ∈ fs, lookupKey acc p.1 = none) →
      (fs.map (fun p => p.1)).Nodup →
      L = pre ++ mkLine fs vs →
      ((tileDFields pre.length fs).foldlM (fun o f => do
        let v ← extractField [] L f
        Except.ok (setKey o f.name v)) acc : Except JErr JObj) = .ok (acc ++ objOf fs vs) := by
  intro fs
  induction fs with
  | nil =>
    intro vs pre acc _ _ _ _ _
    rw [show tileDFields pre.length ([] : List (JStr × Nat)) = [] from rfl,
      List.foldlM_nil, objOf_nil, List.append_nil]
    rfl
  | cons p fs' ih =>
    obtain ⟨n, w⟩ := p
    intro vs pre acc hlen hzip habs hnd hL
    cases vs with
    | nil => exact absurd hlen (by simp)
    | cons v vs' =>
      have hz := hzip ((n, w), v) (by rw [List.zip_cons_cons]; exact List.mem_cons_self _ _)
      rw [show tileDFields pre.length ((n, w) :: fs') =
        tileF n pre.length w :: tileDFields (pre.length + w) fs' from rfl]
      rw [List.foldlM_cons]
      have hsub : substrJS L pre.length w = padSeg w v := by
        rw [hL, mkLine_cons]
        unfold substrJS
        rw [List.drop_left]
        exact List.take_left' (padSeg_length w v hz.2)
      have hext : extractField [] L (tileF n pre.length w) = Except.ok (JVal.str v) := by
        rw [extractField_fixed, hsub]
        unfold padSeg
        rw [jsTrim_pad v _ hz.1]
      rw [hext, exc_bind_ok]
      rw [show (tileF n pre.length w).name = n from rfl]
      rw [setKey_absent acc n (JVal.str v) (habs (n, w) (List.mem_cons_self _ _)),
        exc_bind_ok]
      rw [List.map_cons] at hnd
      have hlen2 : (pre ++ padSeg w v).length = pre.length + w := by
        rw [List.length_append, padSeg_length w v hz.2]
      rw [show pre.length + w = (pre ++ padSeg w v).length from hlen2.symm]
      rw [ih vs' (pre ++ padSeg w v) (acc ++ [(n, JVal.str v)])
        (by simp only [List.length_cons] at hlen; omega)
        (fun q hq => hzip q (by rw [List.zip_cons_cons]; exact List.mem_cons_of_mem _ hq))
        (by
          intro q hq
          rw [lookupKey_append_left _ _ _ (habs q (List.mem_cons_of_mem _ hq))]
          have hne : n ≠ q.1 := by
            intro he
            exact (List.nodup_cons.mp hnd).1
              (he ▸ List.mem_map_of_mem (fun r => r.1) hq)
          rw [lookupKey, if_neg hne]
          rfl)
        (List.nodup_cons.mp hnd).2
        (by rw [hL, mkLine_cons, ← List.append_assoc])]
      rw [objOf_cons, List.append_assoc, List.singleton_append]

theorem parseLine_tile (rt mstr : JStr) (fs : List (JStr × Nat)) (vs : List JStr)
    (hlen : fs.length = vs.length)
    (hzip : ∀ p ∈ List.zip fs vs, jsTrim p.2 = p.2 ∧ p.2.length ≤ p.1.2)
    (hnd : (fs.map (fun p => p.1)).Nodup)
    (htag : "__recordType".toList ∉ fs.map (fun p => p.1)) :
    parseLine (mkDR rt mstr fs) (mkLine fs vs) =
      .ok (objOf fs vs ++ [("__recordType".toList, JVal.str rt)]) := by
  have hfold := parse_fold (mkLine fs vs) fs vs [] [] hlen hzip (fun p _ => rfl) hnd
    (by rw [List.nil_append])
  rw [show (([] : JStr)).length = 0 from rfl] at hfold
  unfold parseLine
  rw [show (mkDR rt mstr fs).fields = tileDFields 0 fs from rfl,
    show (mkDR rt mstr fs).delimiter = ([] : JStr) from rfl,
    show (mkDR rt mstr fs).recordType = rt from rfl]
  rw [hfold, exc_bind_ok, List.nil_append]
  rw [setKey_absent (objOf fs vs) _ _ (lookupKey_objOf_none fs vs _ htag)]

theorem c3_triv (rt mstr : JStr) (fs : List (JStr × Nat)) :
    ∀ d ∈ [mkDR rt mstr fs], noChildDefs d := by
  intro d hd
  rw [List.mem_singleton.mp hd]
  exact Or.inl rfl

theorem flatParse_tile (rt mstr : JStr) (fs : List (JStr × Nat)) :
    ∀ (vss : List (List JStr)),
      (∀ vs ∈ vss, fs.length = vs.length ∧
        (∀ p ∈ List.zip fs vs, jsTrim p.2 = p.2 ∧ p.2.length ≤ p.1.2) ∧
        reTest (compileMatcher mstr) (mkLine fs vs) = true) →
      (fs.map (fun p => p.1)).Nodup →
      "__recordType".toList ∉ fs.map (fun p => p.1) →
      flatParse [mkDR rt mstr fs] (vss.map (mkLine fs)) = .ok (objsOf rt fs vss) := by
  intro vss
  induction vss with
  | nil =>
    intro _ _ _
    rfl
  | cons vs vss' ih =>
    intro hall hnd htag
    have hv := hall vs (List.mem_cons_self _ _)
    rw [List.map_cons]
    rw [flatParse_cons_some [mkDR rt mstr fs] _ _ (mkDR rt mstr fs)
      (List.find?_cons_of_pos _
        (show reTest (mkDR rt mstr fs).matcher (mkLine fs vs) = true from hv.2.2))]
    rw [parseLine_tile rt mstr fs vs hv.1 hv.2.1 hnd htag, exc_bind_ok]
    rw [ih (fun q hq => hall q (List.mem_cons_of_mem _ hq)) hnd htag, exc_bind_ok]
    rw [show objsOf rt fs (vs :: vss') =
      (objOf fs vs ++ [("__recordType".toList, JVal.str rt)]) :: objsOf rt fs vss' from rfl]

theorem mkLine_chars (fs : List (JStr × Nat)) (vs : List JStr)
    (h : ∀ p ∈ List.zip fs vs, ∀ c ∈ p.2,
      c ≠ '\n' ∧ c ≠ '\r' ∧ c ≠ Char.ofNat 0xFEFF) :
    ∀ c ∈ mkLine fs vs, c ≠ '\n' ∧ c ≠ '\r' ∧ c ≠ Char.ofNat 0xFEFF := by
  induction fs generalizing vs with
  | nil =>
    intro c hc
    rw [mkLine_nil] at hc
    exact absurd hc (List.not_mem_nil c)
  | cons p fs' ih =>
    obtain ⟨n, w⟩ := p
    intro c hc
    cases vs with
    | nil =>
      exact absurd hc (List.not_mem_nil c)
    | cons v vs' =>
      rw [mkLine_cons] at hc
      rcases List.mem_append.mp hc with h1 | h1
      · unfold padSeg at h1
        rcases List.mem_append.mp h1 with h2 | h2
        · exact h ((n, w), v) (by rw [List.zip_cons_cons]; exact List.mem_cons_self _ _) c h2
        · rw [List.eq_of_mem_replicate h2]
          refine ⟨by decide, by decide, by decide⟩
      · exact ih vs'
          (fun q hq => h q (by rw [List.zip_cons_cons]; exact List.mem_cons_of_mem _ hq)) c h1

theorem decodeText_single_shape (d : RecordDef) (text : JStr) :
    decodeText [d] text false =
    (match rootLoop (linesOf text) (recordDefsMap [d]) [d] ((linesOf text).length + 1) 0 with
     | .error e => .error e
     | .ok items => .ok (items.map JVal.obj)) := rfl

theorem renderField_mk (n : JStr) (w : Nat) (obj : JObj) (v : JStr)
    (hlk : lookupKey obj n = some (JVal.str v)) (hle : v.length ≤ w) :
    renderField (mkEField n w) (JVal.obj obj) = .ok (padSeg w v) := by
  unfold renderField
  rw [show (if (mkEField n w).valueType = "fixed".toList
      then Except.ok (some (JVal.str (mkEField n w).fixedValue))
      else jsGetProp (JVal.obj obj) (mkEField n w).jsonKey) =
    Except.ok (lookupKey obj n) from rfl]
  rw [hlk]
  show (if w < v.length then Except.ok (v.take w)
    else if v.length < w then Except.ok (v ++ repeatJ [' '] (w - v.length))
    else Except.ok v) = Except.ok (padSeg w v)
  rw [if_neg (by omega : ¬ w < v.length)]
  by_cases hlt : v.length < w
  · rw [if_pos hlt, repeatJ_single]
    rfl
  · rw [if_neg hlt]
    have hz : w - v.length = 0 := by omega
    unfold padSeg
    rw [hz, List.replicate_zero, List.append_nil]

theorem render_fold (obj : JObj) :
    ∀ (fs : List (JStr × Nat)) (vs : List JStr) (acc : JStr),
      fs.length = vs.length →
      (∀ p ∈ List.zip fs vs,
        lookupKey obj p.1.1 = some (JVal.str p.2) ∧ p.2.length ≤ p.1.2) →
      ((fs.map (fun p => mkEField p.1 p.2)).foldlM (fun acc f => do
        let s ← renderField f (JVal.obj obj)
        Except.ok (acc ++ s)) acc : Except JErr JStr) = .ok (acc ++ mkLine fs vs) := by
  intro fs
  induction fs with
  | nil =>
    intro vs acc _ _
    rw [List.map_nil, List.foldlM_nil, mkLine_nil, List.append_nil]
    rfl
  | cons p fs' ih =>
    obtain ⟨n, w⟩ := p
    intro vs acc hlen hzip
    cases vs with
    | nil => exact absurd hlen (by simp)
    | cons v vs' =>
      have hz := hzip ((n, w), v) (by rw [List.zip_cons_cons]; exact List.mem_cons_self _ _)
      rw [List.map_cons, List.foldlM_cons]
      rw [renderField_mk n w obj v hz.1 hz.2, exc_bind_ok, exc_bind_ok]
      rw [ih vs' (acc ++ padSeg w v)
        (by simp only [List.length_cons] at hlen; omega)
        (fun q hq => hzip q (by rw [List.zip_cons_cons]; exact List.mem_cons_of_mem _ hq))]
      rw [mkLine_cons, List.append_assoc]

theorem formatRecord_succ (defs : List ERecordDef) (fuel : Nat) (d : ERecordDef) (v : JVal) :
    formatRecord defs (fuel + 1) d v = (do
      let line ← renderLine d v
      let childLines ← formatChildrenWith (formatRecord defs fuel) defs d.childDefinitions v
      .ok (line :: childLines)) := rfl

theorem formatRecord_one (rt : JStr) (fs : List (JStr × Nat)) (fuel : Nat) (vs : List JStr)
    (hnd : (fs.map (fun p => p.1)).Nodup)
    (hlen : fs.length = vs.length)
    (hzip : ∀ p ∈ List.zip fs vs, p.2.length ≤ p.1.2) :
    formatRecord [mkER rt fs] (fuel + 1) (mkER rt fs)
      (JVal.obj (objOf fs vs ++ [("__recordType".toList, JVal.str rt)])) =
    .ok [mkLine fs vs] := by
  rw [formatRecord_succ]
  have hrl : renderLine (mkER rt fs)
      (JVal.obj (objOf fs vs ++ [("__recordType".toList, JVal.str rt)])) =
      .ok (mkLine fs vs) := by
    unfold renderLine
    rw [show (mkER rt fs).fields = fs.map (fun p => mkEField p.1 p.2) from rfl]
    rw [render_fold _ fs vs [] hlen (fun p hp =>
      ⟨lookupKey_append_some _ _ _ _ (lookupKey_objOf_zip fs vs hnd p hp), hzip p hp⟩)]
    rw [List.nil_append]
  rw [hrl, exc_bind_ok]
  rw [show formatChildrenWith (formatRecord [mkER rt fs] fuel) [mkER rt fs]
    (mkER rt fs).childDefinitions
    (JVal.obj (objOf fs vs ++ [("__recordType".toList, JVal.str rt)])) =
    Except.ok [] from rfl]
  rw [exc_bind_ok]

theorem encode_fold (rt : JStr) (fs : List (JStr × Nat)) (fuel : Nat)
    (hnd : (fs.map (fun p => p.1)).Nodup) :
    ∀ (vss : List (List JStr)) (acc : List JStr),
      (∀ vs ∈ vss, fs.length = vs.length ∧
        ∀ p ∈ List.zip fs vs, p.2.length ≤ p.1.2) →
      (((objsOf rt fs vss).map JVal.obj).foldlM (fun acc x => do
        let ls ← formatRecord [mkER rt fs] (fuel + 1) (mkER rt fs) x
        Except.ok (acc ++ ls)) acc : Except JErr (List JStr)) =
      .ok (acc ++ vss.map (mkLine fs)) := by
  intro vss
  induction vss with
  | nil =>
    intro acc _
    rw [show objsOf rt fs [] = [] from rfl, List.map_nil, List.foldlM_nil,
      List.map_nil, List.append_nil]
    rfl
  | cons vs vss' ih =>
    intro acc hall
    have hv := hall vs (List.mem_cons_self _ _)
    rw [show objsOf rt fs (vs :: vss') =
      (objOf fs vs ++ [("__recordType".toList, JVal.str rt)]) :: objsOf rt fs vss' from rfl]
    rw [List.map_cons, List.foldlM_cons]
    rw [formatRecord_one rt fs fuel vs hnd hv.1 hv.2, exc_bind_ok, exc_bind_ok]
    rw [ih (acc ++ [mkLine fs vs]) (fun q hq => hall q (List.mem_cons_of_mem _ hq))]
    rw [List.map_cons, List.append_assoc, List.singleton_append]

theorem encodeText_single (d : ERecordDef) (fuel : Nat) (nl : JStr) (root : JVal)
    (ls : List JStr) (h : encodeRootLines [d] fuel d root = .ok ls) :
    encodeText [d] fuel nl root = .ok (jsJoin nl ls) := by
  unfold encodeText
  simp only [List.foldlM_cons, List.foldlM_nil]
  rw [h, exc_bind_ok, exc_bind_ok]
  rfl

theorem encodeRootLines_c3 (rt : JStr) (fs : List (JStr × Nat)) (fuel : Nat)
    (vss : List (List JStr))
    (hnd : (fs.map (fun p => p.1)).Nodup)
    (hall : ∀ vs ∈ vss, fs.length = vs.length ∧
      ∀ p ∈ List.zip fs vs, p.2.length ≤ p.1.2) :
    encodeRootLines [mkER rt fs] (fuel + 1) (mkER rt fs)
      (JVal.arr ((objsOf rt fs vss).map JVal.obj)) = .ok (vss.map (mkLine fs)) := by
  show (((objsOf rt fs vss).map JVal.obj).foldlM (fun acc x => do
      let ls ← formatRecord [mkER rt fs] (fuel + 1) (mkER rt fs) x
      Except.ok (acc ++ ls)) ([] : List JStr) : Except JErr (List JStr)) = _
  rw [encode_fold rt fs fuel hnd vss [] hall, List.nil_append]

/-- Claim C3 (corrected): for a schema containing only fixed fields tiled over
the line, with single-space right padding, decoding a text whose lines are
left-aligned padded cells of trim-stable values that fit their declared
widths and re-encoding the result reproduces the text exactly; truncation is
idempotent (re-rendering an already-truncated value is a no-op).  (The
original claim, quantified over every text whose field values merely fit
their widths, is refuted by `claim_C3_cex`: values that are not left-aligned
in their cells come back re-aligned.) -/
theorem claim_C3 (rt mstr : JStr) (fs : List (JStr × Nat)) (vss : List (List JStr))
    (fuel : Nat)
    (hnd : (fs.map (fun p => p.1)).Nodup)
    (htag : "__recordType".toList ∉ fs.map (fun p => p.1))
    (hvals : ∀ vs ∈ vss, fs.length = vs.length ∧
      ∀ p ∈ List.zip fs vs, jsTrim p.2 = p.2 ∧ p.2.length ≤ p.1.2 ∧
        ∀ c ∈ p.2, c ≠ '\n' ∧ c ≠ '\r' ∧ c ≠ Char.ofNat 0xFEFF)
    (hmatch : ∀ vs ∈ vss, reTest (compileMatcher mstr) (mkLine fs vs) = true)
    (hkeep : ∀ vs ∈ vss, (jsTrim (mkLine fs vs)).isEmpty = false) :
    decodeText [mkDR rt mstr fs] (jsJoin ['\n'] (vss.map (mkLine fs))) false =
      .ok ((objsOf rt fs vss).map JVal.obj) ∧
    encodeText [mkER rt fs] (fuel + 1) ['\n']
        (JVal.arr ((objsOf rt fs vss).map JVal.obj)) =
      .ok (jsJoin ['\n'] (vss.map (mkLine fs))) ∧
    (∀ (n v : JStr) (w : Nat), w < v.length →
      renderField (mkEField n w) (JVal.obj [(n, JVal.str v)]) = .ok (v.take w) ∧
      renderField (mkEField n w) (JVal.obj [(n, JVal.str (v.take w))]) = .ok (v.take w)) := by
  refine ⟨?_, ?_, ?_⟩
  · have hlines : linesOf (jsJoin ['\n'] (vss.map (mkLine fs))) = vss.map (mkLine fs) := by
      apply linesOf_join
      · intro l hl c hc
        obtain ⟨vs, hvs, hveq⟩ := List.mem_map.mp hl
        rw [← hveq] at hc
        exact mkLine_chars fs vs (fun p hp c' hc' => ((hvals vs hvs).2 p hp).2.2 c' hc') c hc
      · intro l hl
        obtain ⟨vs, hvs, hveq⟩ := List.mem_map.mp hl
        rw [← hveq]
        exact hkeep vs hvs
    rw [decodeText_single_shape, hlines]
    rw [rootLoop_flat _ _ _ (c3_triv rt mstr fs) _ 0 (by omega)]
    rw [List.drop_zero]
    rw [flatParse_tile rt mstr fs vss (fun vs hvs => ⟨(hvals vs hvs).1,
      fun p hp => ⟨((hvals vs hvs).2 p hp).1, ((hvals vs hvs).2 p hp).2.1⟩,
      hmatch vs hvs⟩) hnd htag]
  · exact encodeText_single (mkER rt fs) (fuel + 1) ['\n'] _ _
      (encodeRootLines_c3 rt fs fuel vss hnd (fun vs hvs => ⟨(hvals vs hvs).1,
        fun p hp => ((hvals vs hvs).2 p hp).2.1⟩))
  · intro n v w hw
    constructor
    · unfold renderField
      rw [show (if (mkEField n w).valueType = "fixed".toList
          then Except.ok (some (JVal.str (mkEField n w).fixedValue))
          else jsGetProp (JVal.obj [(n, JVal.str v)]) (mkEField n w).jsonKey) =
        Except.ok (lookupKey [(n, JVal.str v)] n) from rfl]
      rw [show lookupKey [(n, JVal.str v)] n = some (JVal.str v) from by
        rw [lookupKey, if_pos rfl]]
      show (if w < v.length then Except.ok (v.take w)
        else if v.length < w then Except.ok (v ++ repeatJ [' '] (w - v.length))
        else Except.ok v) = Except.ok (v.take w)
      rw [if_pos hw]
    · unfold renderField
      rw [show (if (mkEField n w).valueType = "fixed".toList
          then Except.ok (some (JVal.str (mkEField n w).fixedValue))
          else jsGetProp (JVal.obj [(n, JVal.str (v.take w))]) (mkEField n w).jsonKey) =
        Except.ok (lookupKey [(n, JVal.str (v.take w))] n) from rfl]
      rw [show lookupKey [(n, JVal.str (v.take w))] n = some (JVal.str (v.take w)) from by
        rw [lookupKey, if_pos rfl]]
      show (if w < (v.take w).length then Except.ok ((v.take w).take w)
        else if (v.take w).length < w then
          Except.ok (v.take w ++ repeatJ [' '] (w - (v.take w).length))
        else Except.ok (v.take w)) = Except.ok (v.take w)
      have hlen : (v.take w).length = w := by
        rw [List.length_take]
        omega
      rw [hlen, if_neg (lt_irrefl w), if_neg (lt_irrefl w)]

theorem claim_C3_witness :
    decodeText [mkDR "RT".toList "R".toList [("h".toList, 1), ("v".toList, 2)]]
        (jsJoin ['\n'] ([["R".toList, "a".toList]].map
          (mkLine [("h".toList, 1), ("v".toList, 2)]))) false =
      .ok ((objsOf "RT".toList [("h".toList, 1), ("v".toList, 2)]
        [["R".toList, "a".toList]]).map JVal.obj) ∧
    encodeText [mkER "RT".toList [("h".toList, 1), ("v".toList, 2)]] (0 + 1) ['\n']
        (JVal.arr ((objsOf "RT".toList [("h".toList, 1), ("v".toList, 2)]
          [["R".toList, "a".toList]]).map JVal.obj)) =
      .ok (jsJoin ['\n'] ([["R".toList, "a".toList]].map
        (mkLine [("h".toList, 1), ("v".toList, 2)]))) ∧
    (∀ (n v : JStr) (w : Nat), w < v.length →
      renderField (mkEField n w) (JVal.obj [(n, JVal.str v)]) = .ok (v.take w) ∧
      renderField (mkEField n w) (JVal.obj [(n, JVal.str (v.take w))]) = .ok (v.take w)) :=
  claim_C3 "RT".toList "R".toList [("h".toList, 1), ("v".toList, 2)]
    [["R".toList, "a".toList]] 0 (by decide) (by decide) (by decide) (by decide) (by decide)

/-- Claim C3, counterexample to the original statement: the schema `c3dR` /
`c3eR` has only fixed fields with padChar ' ', and in the text `R a` every
field value (`R`, `a`) fits its declared width, yet
`encode(decode("R a")) = "Ra "` — decode trims each cell and encode re-pads
on the right, so values not left-aligned in their cells do not round-trip. -/
theorem claim_C3_cex :
    decodeText [c3dR] "R a".toList false = .ok [JVal.obj c3item] ∧
    encodeText [c3eR] 1 ['\n'] (JVal.arr [JVal.obj c3item]) = .ok "Ra ".toList ∧
    ("Ra ".toList : JStr) ≠ "R a".toList := ⟨rfl, rfl, by decide⟩

end T2J
